import Mathlib

/-!
Verification of the OBDb signalset merge/conflict-resolution/provenance pipeline
(repo-tools/signalsets: utils.py, processor.py, extractor.py).

The Python code manipulates JSON dictionaries.  The embedding models

* a signal as a record holding the five fields that the merge logic treats
  specially (id, name, description, path, comment, each optional) together
  with the remaining attributes as an association list `rest` (standing for
  the canonically ordered key-sorted remainder of the JSON object, which is
  exactly what `json.dumps(..., sort_keys=True)` compares);
* a command as a record of the fields read by the merge code (hdr, eax, cmd,
  filter, dbg, dbgfilter, description, signals) plus a `rest` association
  list for the attributes the code carries through untouched; the `filter`
  field stands for the canonical serialization `json.dumps(cmd["filter"])`
  of the structured filter value;
* Python dictionaries used as insertion-ordered registries as association
  lists: assignment to a fresh key appends, assignment to an existing key
  updates in place, and iteration follows the list order — exactly the
  semantics of Python 3.7+ dicts.
-/

namespace OBDb

/-- Lookup in an insertion-ordered association list (Python `d.get(k)` / `d[k]`). -/
def lookupA {α : Type} : List (String × α) → String → Option α
  | [], _ => none
  | (k, v) :: rest, key => if k = key then some v else lookupA rest key

/-- Key membership in an association list (Python `k in d`). -/
def hasKey {α : Type} (l : List (String × α)) (key : String) : Bool :=
  (lookupA l key).isSome

/-- Python dict assignment `d[k] = v`: update in place if the key exists,
append otherwise (insertion order preserved). -/
def dictSet {α : Type} : List (String × α) → String → α → List (String × α)
  | [], key, v => [(key, v)]
  | (k, w) :: rest, key, v =>
    if k = key then (key, v) :: rest else (k, w) :: dictSet rest key v

/-- Python `set.add` on a set modelled as a duplicate-free list. -/
def setAdd (l : List String) (x : String) : List String :=
  if x ∈ l then l else l ++ [x]

/-- A signal object.  The merge logic reads the id field and treats name,
description, path and comment as ignorable for equality; all remaining JSON
attributes (the format block etc.) are carried in `rest`. -/
structure Signal where
  id : Option String
  name : Option String
  description : Option String
  path : Option String
  comment : Option String
  rest : List (String × String)
deriving DecidableEq

/-- Provenance record built in process_signalsets (`source_info`). -/
structure SourceInfo where
  file : String
  make : String
  model : String
  repo : String
  yearRange : Option (Nat × Nat)
deriving DecidableEq

/-- A command object, with the fields the merge pipeline reads.  `cmd` is the
single-entry service-to-parameter mapping (kept as an ordered association
list, `none` when the key is absent); `filter` stands for the serialized
filter (`json.dumps`), `none` when absent. -/
structure Command where
  hdr : Option String
  eax : Option String
  cmd : Option (List (String × String))
  filter : Option String
  dbg : Option Bool
  dbgfilter : Option String
  description : Option String
  signals : Option (List Signal)
  rest : List (String × String)
deriving DecidableEq

/-- A merged signalset document: the commands list plus the optional
`_signal_origins` metadata map. -/
structure Signalset where
  commands : List Command
  signalOrigins : Option (List (String × List SourceInfo))
deriving DecidableEq

/-! ### utils.py -/

/-- utils.extract_year_range_from_filename: `re.search` of the pattern
`(\d{4})-(\d{4})\.json$`.  Because the pattern is anchored at the end of the
string and has fixed width 14, a match exists exactly when the last 14
characters have the shape `dddd-dddd.json`; the embedding inspects that
suffix directly.  (`\d` is modelled as an ASCII digit and `$` as the very
end of the string.) -/
def extract_year_range_from_filename (filename : String) : Option (Nat × Nat) :=
  let cs := filename.data
  if cs.length < 14 then none
  else
    match cs.drop (cs.length - 14) with
    | [a, b, c, d, dash, e, f, g, h, dot, j, s, o, n] =>
      if a.isDigit ∧ b.isDigit ∧ c.isDigit ∧ d.isDigit ∧ dash = '-' ∧
         e.isDigit ∧ f.isDigit ∧ g.isDigit ∧ h.isDigit ∧
         dot = '.' ∧ j = 'j' ∧ s = 's' ∧ o = 'o' ∧ n = 'n' then
        some (((a.toNat - 48) * 10 + (b.toNat - 48)) * 10 * 10 +
                ((c.toNat - 48) * 10 + (d.toNat - 48)),
              ((e.toNat - 48) * 10 + (f.toNat - 48)) * 10 * 10 +
                ((g.toNat - 48) * 10 + (h.toNat - 48)))
      else none
    | _ => none

/-- utils.replace_signal_prefix: replace everything before the first
underscore with the new prefix, or prepend it when no underscore exists.
The slice `signal_id[signal_id.find(x):]` is modelled with findIdx/drop. -/
def replace_signal_prefix (signal_id newPfx : String) : String :=
  if signal_id = "" ∨ newPfx = "" then signal_id
  else if '_' ∈ signal_id.data then
    newPfx ++ String.mk (signal_id.data.drop (signal_id.data.findIdx (fun c => c = '_')))
  else
    newPfx ++ "_" ++ signal_id

/-- utils.are_signals_equal: structural equality of the two signal objects
after popping id, name, description, path and comment — i.e. equality of the
remaining attributes. -/
def are_signals_equal (s1 s2 : Signal) : Bool :=
  decide (s1.rest = s2.rest)

/-- First key of the `cmd` mapping, or the empty string when the field is
missing or the mapping is empty
(`list(cmd.get('cmd', {}).keys())[0] if cmd.get('cmd') else ''`). -/
def firstServiceId (c : Command) : String :=
  match c.cmd with
  | none => ""
  | some [] => ""
  | some ((k, _) :: _) => k

/-- The `cmd.get('cmd', {})` mapping. -/
def cmdDict (c : Command) : List (String × String) := c.cmd.getD []

/-- utils.get_command_id: the identity key `hdr:eax:sid:pid:filter`, or none
for commands whose service id is not 21/22. -/
def get_command_id (c : Command) : Option String :=
  let hdr := c.hdr.getD ""
  let eax := c.eax.getD ""
  let sid := firstServiceId c
  if sid ≠ "21" ∧ sid ≠ "22" then none
  else
    let pid := (lookupA (cmdDict c) sid).getD "None"
    let fstr := c.filter.getD ""
    some (hdr ++ ":" ++ eax ++ ":" ++ sid ++ ":" ++ pid ++ ":" ++ fstr)

/-! ### processor.ensure_unique_signal_ids

The registry maps each original identifier to the ordered list of
(versioned id, comparison definition) pairs emitted for it; the comparison
definition is the signal with the id field removed. -/

/-- Registry type of ensure_unique_signal_ids. -/
abbrev Registry : Type := List (String × List (String × Signal))

/-- One signal of one command, processed against the registry: signals
without an id pass through; a repeat occurrence of an id is renamed to
`id_V(n+1)` where n is the number of entries already registered for it. -/
def ensureSignal (reg : Registry) (s : Signal) : Registry × Signal :=
  match s.id with
  | none => (reg, s)
  | some original_id =>
    let comparison_def : Signal := { s with id := none }
    match lookupA reg original_id with
    | some versions =>
      let version := versions.length + 1
      let versioned_id := original_id ++ "_V" ++ Nat.repr version
      let s' := { s with id := some versioned_id }
      (dictSet reg original_id (versions ++ [(versioned_id, comparison_def)]), s')
    | none =>
      (reg ++ [(original_id, [(original_id, comparison_def)])], s)

/-- The signal loop of ensure_unique_signal_ids over one command. -/
def ensureSignals (reg : Registry) : List Signal → Registry × List Signal
  | [] => (reg, [])
  | s :: rest =>
    let (reg1, s') := ensureSignal reg s
    let (reg2, rest') := ensureSignals reg1 rest
    (reg2, s' :: rest')

/-- The command loop of ensure_unique_signal_ids: commands without a signals
field are skipped unchanged. -/
def ensureCommands (reg : Registry) : List Command → Registry × List Command
  | [] => (reg, [])
  | c :: rest =>
    match c.signals with
    | none =>
      let (reg1, rest') := ensureCommands reg rest
      (reg1, c :: rest')
    | some sigs =>
      let (reg1, sigs') := ensureSignals reg sigs
      let (reg2, rest') := ensureCommands reg1 rest
      (reg2, { c with signals := some sigs' } :: rest')

/-- One registry family in the origin-expansion loop: when the original id
has an entry in the input origins map, every versioned id of the family is
assigned that entry. -/
def expandEntry (origins : List (String × List SourceInfo))
    (acc : List (String × List SourceInfo)) (entry : String × List (String × Signal)) :
    List (String × List SourceInfo) :=
  match lookupA origins entry.fst with
  | none => acc
  | some srcs => entry.snd.foldl (fun acc2 v => dictSet acc2 v.fst srcs) acc

/-- The origin-expansion loop of ensure_unique_signal_ids. -/
def expandOrigins (reg : Registry) (origins : List (String × List SourceInfo)) :
    List (String × List SourceInfo) :=
  reg.foldl (expandEntry origins) []

/-- processor.ensure_unique_signal_ids. -/
def ensure_unique_signal_ids (m : Signalset) : Signalset :=
  let r := ensureCommands [] m.commands
  { commands := r.snd,
    signalOrigins :=
      match m.signalOrigins with
      | none => none
      | some origins => some (expandOrigins r.fst origins) }

/-- The ids appearing on signals of a command list, in walk order. -/
def idWalk (cmds : List Command) : List String :=
  (cmds.map (fun c => (c.signals.getD []).filterMap Signal.id)).flatten

/-! ### processor.process_signalsets -/

/-- The three identifier-keyed registries threaded through
process_signalsets: signal_registry, signal_origins and
signal_command_usage (Python sets modelled as duplicate-free lists). -/
structure RegState where
  registry : List (String × Signal)
  origins : List (String × List SourceInfo)
  usage : List (String × List String)
deriving DecidableEq

/-- One signal of one command in process_signalsets: prefix rewrite,
conflict detection against the registry, origin recording and
per-command-usage tracking.  Returns the updated registries and the signals
appended to new_signals for this input signal (empty when a duplicate is
dropped). -/
def processSignal (spfx : Option String) (src : SourceInfo) (cmd_id : String)
    (st : RegState) (s : Signal) : RegState × List Signal :=
  let original_id := s.id.getD ""
  if original_id = "" then (st, [s])
  else
    let base_id :=
      match spfx with
      | none => original_id
      | some p => if p = "" then original_id else replace_signal_prefix original_id p
    let s := { s with id := some base_id }
    let usage0 := if hasKey st.usage base_id then st.usage else st.usage ++ [(base_id, [])]
    let already := cmd_id ∈ (lookupA usage0 base_id).getD []
    match lookupA st.registry base_id with
    | some existing =>
      if are_signals_equal s existing then
        let usage1 := dictSet usage0 base_id (setAdd ((lookupA usage0 base_id).getD []) cmd_id)
        let origins1 :=
          match lookupA st.origins base_id with
          | none => st.origins
          | some srcs =>
            if src.repo ∈ srcs.map SourceInfo.repo then st.origins
            else dictSet st.origins base_id (srcs ++ [src])
        ({ registry := st.registry, origins := origins1, usage := usage1 },
         if already then [] else [s])
      else
        let registry1 := dictSet st.registry base_id s
        let usage1 := if hasKey usage0 base_id then usage0 else usage0 ++ [(base_id, [])]
        let usage2 := dictSet usage1 base_id (setAdd ((lookupA usage1 base_id).getD []) cmd_id)
        let origins1 := dictSet st.origins base_id [src]
        ({ registry := registry1, origins := origins1, usage := usage2 }, [s])
    | none =>
      let (registry1, origins1) :=
        if hasKey st.registry base_id then (st.registry, st.origins)
        else (st.registry ++ [(base_id, s)], dictSet st.origins base_id [src])
      let usage1 := dictSet usage0 base_id (setAdd ((lookupA usage0 base_id).getD []) cmd_id)
      ({ registry := registry1, origins := origins1, usage := usage1 }, [s])

/-- The signal loop of process_signalsets over one command. -/
def processSignals (spfx : Option String) (src : SourceInfo) (cmd_id : String) :
    RegState → List Signal → RegState × List Signal
  | st, [] => (st, [])
  | st, s :: rest =>
    let (st1, out) := processSignal spfx src cmd_id st s
    let (st2, rest') := processSignals spfx src cmd_id st1 rest
    (st2, out ++ rest')

/-- State of the per-vehicle merge: the accumulating commands list, the
command_map from identity key to the index of the command in that list
(Python stores an object reference; the index models the same aliasing),
and the signal registries. -/
structure PState where
  mergedCommands : List Command
  commandMap : List (String × Nat)
  regs : RegState
deriving DecidableEq

/-- Merging a command into an already-registered command with the same
identity key (processor lines 125-133): the signals of the new command are
appended when their id is not among the ids the existing command had before
the merge (the id dictionary is computed once and not updated). -/
def mergeIntoExisting (cmds : List Command) (idx : Nat) (newCmd : Command) : List Command :=
  match cmds[idx]? with
  | none => cmds
  | some existing =>
    let existingIds : List (Option String) := (existing.signals.getD []).map Signal.id
    let toAppend := (newCmd.signals.getD []).filter (fun s => decide (s.id ∉ existingIds))
    if toAppend.isEmpty then cmds
    else cmds.set idx { existing with signals := some (existing.signals.getD [] ++ toAppend) }

/-- Normalization of a command in process_signalsets: default the dbg flag
to true when absent and delete any dbgfilter annotation. -/
def normalizeCommand (c : Command) : Command :=
  { (if c.dbg = none then { c with dbg := some true } else c) with dbgfilter := none }

/-- The signals block of process_signalsets for one command: commands
without a signals field are left alone, otherwise the signal list is
replaced by the processed new_signals and the registries are updated. -/
def processCommandSignals (spfx : Option String) (src : SourceInfo) (cmd_id : String)
    (regs : RegState) (c : Command) : RegState × Command :=
  match c.signals with
  | none => (regs, c)
  | some sigs =>
    ((processSignals spfx src cmd_id regs sigs).fst,
     { c with signals := some (processSignals spfx src cmd_id regs sigs).snd })

/-- One command of one source file in process_signalsets. -/
def processCommand (spfx : Option String) (src : SourceInfo) (st : PState) (c : Command) :
    PState :=
  match get_command_id c with
  | none => st
  | some cmd_id =>
    let r := processCommandSignals spfx src cmd_id st.regs (normalizeCommand c)
    match lookupA st.commandMap cmd_id with
    | some idx =>
      { st with mergedCommands := mergeIntoExisting st.mergedCommands idx r.snd, regs := r.fst }
    | none =>
      { mergedCommands := st.mergedCommands ++ [r.snd],
        commandMap := st.commandMap ++ [(cmd_id, st.mergedCommands.length)],
        regs := r.fst }

/-- The command loop of process_signalsets over one source file. -/
def processCommands (spfx : Option String) (src : SourceInfo) :
    PState → List Command → PState
  | st, [] => st
  | st, c :: rest => processCommands spfx src (processCommand spfx src st c) rest

/-- The file loop of process_signalsets: each loaded document is a pair of
its commands list and its filename. -/
def processFiles (make model : String) (spfx : Option String) :
    PState → List (List Command × String) → PState
  | st, [] => st
  | st, (cmds, filename) :: rest =>
    let src : SourceInfo :=
      { file := filename, make := make, model := model, repo := make ++ "-" ++ model,
        yearRange := extract_year_range_from_filename filename }
    processFiles make model spfx (processCommands spfx src st cmds) rest

/-- The empty initial state of process_signalsets. -/
def initPState : PState :=
  { mergedCommands := [], commandMap := [],
    regs := { registry := [], origins := [], usage := [] } }

/-- processor.process_signalsets: merge the loaded documents of one vehicle
into a single signalset carrying the _signal_origins map. -/
def process_signalsets (loaded : List (List Command × String)) (make model : String)
    (spfx : Option String) : Signalset :=
  let st := processFiles make model spfx initPState loaded
  { commands := st.mergedCommands, signalOrigins := some st.regs.origins }

/-! ### extractor.extract_data (aggregation core)

The extractor walks the workspace, partitions repositories into filter
groups and processes them in sorted order; the embedding takes the
resulting sequence of repositories in that processing order.  The global
command-origin bookkeeping, report writing and file I/O are independent of
the merged signalset and of the signal-origin map and are not modelled. -/

/-- Lines 162-174 of extractor.py: the loop iterates the merged commands and
computes the identity key of each (the inline computation is the same as
get_command_id), but never inserts anything into command_map, so the
resulting map is empty. -/
def buildFleetCommandMap (cmds : List Command) : List (String × Nat) :=
  cmds.foldl (fun command_map c => let _ := get_command_id c; command_map) []

/-- Lines 190-204 of extractor.py: merge the signals of a same-key command
into the fleet command at index idx.  A signal is appended when its id is a
non-empty string not yet among the existing ids; here the id set is updated
as signals are appended. -/
def fleetMergeSignals (cmds : List Command) (idx : Nat) (c : Command) : List Command :=
  match cmds[idx]? with
  | none => cmds
  | some existing =>
    let step := fun (acc : List Signal × List (Option String)) (s : Signal) =>
      match s.id with
      | some sid =>
        if sid ≠ "" ∧ some sid ∉ acc.snd then (acc.fst ++ [s], acc.snd ++ [some sid]) else acc
      | none => acc
    let init : List Signal × List (Option String) :=
      ([], (existing.signals.getD []).map Signal.id)
    let r := (c.signals.getD []).foldl step init
    if r.fst.isEmpty then cmds
    else cmds.set idx { existing with signals := some (existing.signals.getD [] ++ r.fst) }

/-- The command loop of lines 176-207 of extractor.py with a fixed
command_map: non-21/22 commands are skipped (the inline identity-key
computation is the one of get_command_id); a key found in the map merges
signals into the mapped fleet command, otherwise the command is appended. -/
def fleetMergeLoop (command_map : List (String × Nat)) :
    List Command → List Command → List Command
  | acc, [] => acc
  | acc, c :: rest =>
    let acc' :=
      match get_command_id c with
      | none => acc
      | some cmd_id =>
        match lookupA command_map cmd_id with
        | some idx => fleetMergeSignals acc idx c
        | none => acc ++ [c]
    fleetMergeLoop command_map acc' rest

/-- Lines 162-207 of extractor.py: fold one repository of merged commands
into the fleet-wide commands list, against the (always empty) command_map
built beside the loop. -/
def fleetMergeStep (merged : List Command) (repoCmds : List Command) : List Command :=
  fleetMergeLoop (buildFleetCommandMap merged) merged repoCmds

/-- The cross-repository loop of extract_data restricted to the commands
lists (the fleet-wide merged_signalset starts as an empty commands list). -/
def fleetAggregate (repoCommandLists : List (List Command)) : List Command :=
  repoCommandLists.foldl fleetMergeStep []

/-- Lines 118-123 of extractor.py: append a repository's signal origins to
the global map. -/
def accumulateOrigins (glob repoOrigins : List (String × List SourceInfo)) :
    List (String × List SourceInfo) :=
  repoOrigins.foldl
    (fun g e =>
      match lookupA g e.fst with
      | some ex => dictSet g e.fst (ex ++ e.snd)
      | none => g ++ [(e.fst, e.snd)])
    glob

/-- One repository given to extract_data: its loaded signalset files and the
make/model split of its name. -/
structure RepoInput where
  files : List (List Command × String)
  make : String
  model : String

/-- The aggregation core of extract_data, over repositories in processing
order: per-repository merge, accumulation of the global signal-origin map,
deletion of the per-repository map before the fleet merge, and the final
uniqueness enforcement.  Returns the final fleet signalset together with
the global signal-origin map handed to the provenance reporter.  Because
each per-repository _signal_origins entry is deleted after accumulation,
the fleet-wide signalset reaching ensure_unique_signal_ids carries no
_signal_origins. -/
def extract_data_core (repos : List RepoInput) (spfx : Option String) :
    Signalset × List (String × List SourceInfo) :=
  let step := fun (acc : List Command × List (String × List SourceInfo)) (repo : RepoInput) =>
    let repoSS := process_signalsets repo.files repo.make repo.model spfx
    let glob :=
      match repoSS.signalOrigins with
      | some orig => accumulateOrigins acc.snd orig
      | none => acc.snd
    (fleetMergeStep acc.fst repoSS.commands, glob)
  let (mergedCmds, globalOrigins) := repos.foldl step ([], [])
  (ensure_unique_signal_ids { commands := mergedCmds, signalOrigins := none }, globalOrigins)

/-! ### Specification-side definitions

These definitions follow the words of the specification claims; the
refinement theorems below compare them with the source embedding. -/

/-- The versioned identifier a specification claim assigns to the n-th
occurrence of an identifier: the first occurrence keeps the bare
identifier, occurrence n (n at least 2) becomes `id_Vn`. -/
def emitId (x : String) (n : Nat) : String :=
  if n = 1 then x else x ++ "_V" ++ Nat.repr n

/-- Claim C3 wording, per signal: a signal without an id passes through
unchanged; an identified signal becomes occurrence number
(count seen so far) + 1 of its identifier and is renamed accordingly. -/
def specRenameSignal (counts : List (String × Nat)) (s : Signal) :
    List (String × Nat) × Signal :=
  match s.id with
  | none => (counts, s)
  | some x =>
    let n := (lookupA counts x).getD 0 + 1
    (dictSet counts x n,
     if n = 1 then s else { s with id := some (x ++ "_V" ++ Nat.repr n) })

/-- Claim C3 wording over a signal list, threading occurrence counts. -/
def specRenameSignals (counts : List (String × Nat)) :
    List Signal → List (String × Nat) × List Signal
  | [] => (counts, [])
  | s :: rest =>
    let (counts1, s') := specRenameSignal counts s
    let (counts2, rest') := specRenameSignals counts1 rest
    (counts2, s' :: rest')

/-- Claim C3 wording over the command walk: commands without a signals
field pass through unchanged. -/
def specRenameCommands (counts : List (String × Nat)) :
    List Command → List (String × Nat) × List Command
  | [] => (counts, [])
  | c :: rest =>
    match c.signals with
    | none =>
      let (counts1, rest') := specRenameCommands counts rest
      (counts1, c :: rest')
    | some sigs =>
      let (counts1, sigs') := specRenameSignals counts sigs
      let (counts2, rest') := specRenameCommands counts1 rest
      (counts2, { c with signals := some sigs' } :: rest')

/-- The identifier-level renaming walk underlying the claims: each
identifier occurrence is replaced by emitId of its occurrence number. -/
def renameIds (counts : List (String × Nat)) :
    List String → List (String × Nat) × List String
  | [] => (counts, [])
  | x :: xs =>
    let n := (lookupA counts x).getD 0 + 1
    let (counts', xs') := renameIds (dictSet counts x n) xs
    (counts', emitId x n :: xs')

/-- Decimal digit readback used to invert the rendering of version numbers. -/
def fromDigits (a : Nat) : List Char → Nat
  | [] => a
  | c :: cs => fromDigits (10 * a + (c.toNat - 48)) cs

/-- The family of identifiers the uniqueness enforcer derives from an
original identifier occurring k times: the bare identifier followed by the
version-suffixed ones for occurrences 2..k. -/
def familyIds (x : String) (k : Nat) : List String :=
  x :: (List.range' 2 (k - 1)).map (fun j => x ++ "_V" ++ Nat.repr j)

/-- The identifier-level image of the uniqueness-enforcer registry: each
entry keeps only the versioned identifiers of its family. -/
def regIdsStep (r : List (String × List String)) (x : String) :
    List (String × List String) :=
  match lookupA r x with
  | some fam => dictSet r x (fam ++ [x ++ "_V" ++ Nat.repr (fam.length + 1)])
  | none => r ++ [(x, [x])]

/-- The identifier-level registry built along a walk. -/
def regIds (r : List (String × List String)) : List String → List (String × List String)
  | [] => r
  | x :: xs => regIds (regIdsStep r x) xs

/-- The no-collision precondition for global uniqueness: no identifier
occurring in the walk is itself equal to another occurring identifier with
a version suffix `_Vn` (n between 2 and the walk length).  Adversarial
inputs violating it (for example an input already containing `X_V2` next
to two occurrences of `X`) defeat the enforcer. -/
def noVersionCollision (l : List String) : Prop :=
  ∀ x ∈ l, ∀ y ∈ l, ∀ n ∈ List.range (l.length + 1),
    2 ≤ n → x ≠ y ++ "_V" ++ Nat.repr n

instance (l : List String) : Decidable (noVersionCollision l) := by
  unfold noVersionCollision; infer_instance

/-- Claim C8 wording of the filename pattern, read as the whole filename:
four digits, a dash, four digits, then `.json` and nothing else. -/
def wholeNameIsYearPattern (filename : String) : Bool :=
  match filename.data with
  | [a, b, c, d, dash, e, f, g, h, dot, j, s, o, n] =>
    a.isDigit && b.isDigit && c.isDigit && d.isDigit && dash = '-' &&
    e.isDigit && f.isDigit && g.isDigit && h.isDigit &&
    dot = '.' && j = 'j' && s = 's' && o = 'o' && n = 'n'
  | _ => false

/-- Numeric value of a four-digit group, from the claim wording. -/
def yearOfDigits (a b c d : Char) : Nat :=
  ((a.toNat - 48) * 10 + (b.toNat - 48)) * 10 * 10 + ((c.toNat - 48) * 10 + (d.toNat - 48))

/-- A filename ends with the year-range pattern `dddd-dddd.json` with the
given year values: the decomposition the amended claim C8 speaks about. -/
def endsWithYearPattern (filename : String) (y1 y2 : Nat) : Prop :=
  ∃ pre a b c d e f g h, filename.data =
      pre ++ [a, b, c, d] ++ '-' :: [e, f, g, h] ++ ('.' :: ['j', 's', 'o', 'n']) ∧
    a.isDigit ∧ b.isDigit ∧ c.isDigit ∧ d.isDigit ∧
    e.isDigit ∧ f.isDigit ∧ g.isDigit ∧ h.isDigit ∧
    y1 = yearOfDigits a b c d ∧ y2 = yearOfDigits e f g h

/-- The suffix of an identifier from its first underscore on, from the
claim C7 wording. -/
def suffixFromFirstUnderscore (signal_id : String) : String :=
  String.mk (signal_id.data.dropWhile (fun c => c ≠ '_'))

/-- Occurrence-count image of the uniqueness-enforcer registry. -/
def projLen (reg : Registry) : List (String × Nat) :=
  reg.map (fun e => (e.fst, e.snd.length))

/-- Versioned-identifier image of the uniqueness-enforcer registry. -/
def projIds (reg : Registry) : List (String × List String) :=
  reg.map (fun e => (e.fst, e.snd.map Prod.fst))

/-! ### Concrete documents used as counterexamples and witnesses -/

/-- A signal with an optional id, a name and a format payload. -/
def mkSignal (i : Option String) (nm : String) (fmt : List (String × String)) : Signal :=
  { id := i, name := some nm, description := none, path := none, comment := none, rest := fmt }

/-- A service-21/22 command with a header, service id, parameter id and signals. -/
def mkCommand (h sid pid : String) (sigs : List Signal) : Command :=
  { hdr := some h, eax := none, cmd := some [(sid, pid)], filter := none,
    dbg := none, dbgfilter := none, description := none, signals := some sigs, rest := [] }

/-- Counterexample input for claim C1: an already version-suffixed identifier
collides with the suffix generated for a duplicated identifier. -/
def exC1 : Signalset :=
  { commands := [mkCommand "7E0" "22" "0110"
      [mkSignal (some "X") "a" [("fmt", "T1")],
       mkSignal (some "X") "b" [("fmt", "T2")],
       mkSignal (some "X_V2") "c" [("fmt", "T3")]]],
    signalOrigins := none }

/-- Witness input for claim C1: duplicated and fresh identifiers without
version-suffix collisions. -/
def exC1w : Signalset :=
  { commands := [mkCommand "7E0" "22" "0110"
      [mkSignal (some "X") "a" [("fmt", "T1")],
       mkSignal (some "X") "b" [("fmt", "T2")],
       mkSignal (some "Y") "c" [("fmt", "T3")]]],
    signalOrigins := none }

/-- Single-command document used in the claim C8 examples. -/
def exC8cmd : Command :=
  mkCommand "7E0" "22" "0110" [mkSignal (some "VSS") "Vehicle Speed" [("type", "UINT8")]]

/-- Two repositories contributing commands with the same identity key but
different signals (claim C2). -/
def exC2repos : List RepoInput :=
  [{ files := [([mkCommand "7E0" "22" "0110"
        [mkSignal (some "TOYOTA_VSS") "v" [("type", "U8")]]], "default.json")],
     make := "Toyota", model := "Camry" },
   { files := [([mkCommand "7E0" "22" "0110"
        [mkSignal (some "HONDA_VSS") "v" [("type", "U8")]]], "default.json")],
     make := "Honda", model := "Civic" }]

/-- Two files of one vehicle: file1 contributes an equal signal twice in
one command, file2 contributes the same signal under a different command
(claim C5; the scenario of the repository test for conflicting signals). -/
def exC5files : List (List Command × String) :=
  [([mkCommand "701" "22" "0103"
      [mkSignal (some "CAMRY_ODO") "Odometer" [("fmt", "odo")],
       mkSignal (some "CAMRY_ODO") "Odometer" [("fmt", "odo")]]], "file1.json"),
   ([mkCommand "747" "22" "0103"
      [mkSignal (some "CAMRY_ODO") "Odometer" [("fmt", "odo")]]], "file2.json")]

/-- Origins map with one live and one stale entry (claims C10, C4). -/
def exC10origins : List (String × List SourceInfo) :=
  [("A", [⟨"f.json", "Make", "Model", "Make-Model", none⟩]),
   ("STALE", [⟨"g.json", "Make", "Model", "Make-Model", none⟩])]

/-- A signalset carrying a duplicated identifier and the origins map above
(claims C10, C4). -/
def exC10 : Signalset :=
  { commands := [mkCommand "7E0" "22" "0110"
      [mkSignal (some "A") "a" [("t", "1")], mkSignal (some "A") "b" [("t", "2")]]],
    signalOrigins := some exC10origins }

/-- Two repositories both emitting TOYOTA_ODO with equal format under
different command identity keys (claim C4, the example of the spec). -/
def exC4repos : List RepoInput :=
  [{ files := [([mkCommand "701" "22" "0103"
        [mkSignal (some "TOYOTA_ODO") "Odometer" [("fmt", "odo")]]], "default.json")],
     make := "Toyota", model := "Camry" },
   { files := [([mkCommand "747" "22" "0103"
        [mkSignal (some "TOYOTA_ODO") "Odometer" [("fmt", "odo")]]], "default.json")],
     make := "Toyota", model := "Rav4" }]

/-! ### Theorems -/

/-! #### Association-list lemmas -/

theorem lookupA_map {α β : Type} (g : α → β) (l : List (String × α)) (x : String) :
    lookupA (l.map (fun e => (e.fst, g e.snd))) x = (lookupA l x).map g := by
  induction l with
  | nil => rfl
  | cons e rest ih =>
    obtain ⟨k, v⟩ := e
    by_cases h : k = x <;> simp [lookupA, h, ih]

theorem dictSet_map {α β : Type} (g : α → β) (l : List (String × α)) (k : String) (v : α) :
    dictSet (l.map (fun e => (e.fst, g e.snd))) k (g v) =
      (dictSet l k v).map (fun e => (e.fst, g e.snd)) := by
  induction l with
  | nil => rfl
  | cons e rest ih =>
    obtain ⟨kk, w⟩ := e
    by_cases h : kk = k <;> simp [dictSet, h, ih]

theorem lookupA_dictSet {α : Type} (l : List (String × α)) (k k' : String) (v : α) :
    lookupA (dictSet l k v) k' = if k = k' then some v else lookupA l k' := by
  induction l with
  | nil => simp [dictSet, lookupA]
  | cons e rest ih =>
    obtain ⟨kk, w⟩ := e
    by_cases h : kk = k
    · subst h
      by_cases h2 : kk = k' <;> simp [dictSet, lookupA, h2]
    · by_cases h2 : kk = k'
      · subst h2
        have : ¬ k = kk := fun hh => h hh.symm
        simp [dictSet, lookupA, h, this]
      · simp [dictSet, lookupA, h, h2, ih]

theorem dictSet_of_not_mem {α : Type} (l : List (String × α)) (k : String) (v : α)
    (h : lookupA l k = none) : dictSet l k v = l ++ [(k, v)] := by
  induction l with
  | nil => rfl
  | cons e rest ih =>
    obtain ⟨kk, w⟩ := e
    by_cases h2 : kk = k
    · simp [lookupA, h2] at h
    · simp only [lookupA, if_neg h2] at h
      simp [dictSet, h2, ih h]

theorem lookupA_append_left {α : Type} (l1 l2 : List (String × α)) (k : String) (v : α)
    (h : lookupA l1 k = some v) : lookupA (l1 ++ l2) k = some v := by
  induction l1 with
  | nil => simp [lookupA] at h
  | cons e rest ih =>
    obtain ⟨kk, w⟩ := e
    by_cases h2 : kk = k
    · simp_all [lookupA]
    · simp only [lookupA, if_neg h2] at h ⊢
      exact ih h

theorem lookupA_append_right {α : Type} (l1 l2 : List (String × α)) (k : String)
    (h : lookupA l1 k = none) : lookupA (l1 ++ l2) k = lookupA l2 k := by
  induction l1 with
  | nil => rfl
  | cons e rest ih =>
    obtain ⟨kk, w⟩ := e
    by_cases h2 : kk = k
    · simp [lookupA, h2] at h
    · simp only [lookupA, if_neg h2] at h ⊢
      exact ih h

theorem mem_of_lookupA {α : Type} (l : List (String × α)) (k : String) (v : α)
    (h : lookupA l k = some v) : (k, v) ∈ l := by
  induction l with
  | nil => simp [lookupA] at h
  | cons e rest ih =>
    obtain ⟨kk, w⟩ := e
    by_cases h2 : kk = k
    · subst h2
      have hl : lookupA ((kk, w) :: rest) kk = some w := by simp [lookupA]
      rw [hl] at h
      have hv := Option.some.inj h
      subst hv
      exact List.mem_cons_self _ _
    · simp only [lookupA, if_neg h2] at h
      exact List.mem_cons_of_mem _ (ih h)

theorem mem_dictSet {α : Type} (l : List (String × α)) (k : String) (v : α)
    (e : String × α) (h : e ∈ dictSet l k v) : e ∈ l ∨ e = (k, v) := by
  induction l with
  | nil =>
    simp only [dictSet] at h
    right
    exact List.mem_singleton.mp h
  | cons e0 rest ih =>
    obtain ⟨kk, w⟩ := e0
    by_cases h2 : kk = k
    · rw [show dictSet ((kk, w) :: rest) k v = (k, v) :: rest by simp [dictSet, h2]] at h
      rcases List.mem_cons.mp h with h | h
      · right; exact h
      · left; exact List.mem_cons_of_mem _ h
    · rw [show dictSet ((kk, w) :: rest) k v = (kk, w) :: dictSet rest k v by
        simp [dictSet, h2]] at h
      rcases List.mem_cons.mp h with h | h
      · left; exact h ▸ List.mem_cons_self _ _
      · rcases ih h with h3 | h3
        · left; exact List.mem_cons_of_mem _ h3
        · right; exact h3

theorem lookupA_isSome_iff {α : Type} (l : List (String × α)) (k : String) :
    (lookupA l k).isSome ↔ k ∈ l.map Prod.fst := by
  induction l with
  | nil => simp [lookupA]
  | cons e rest ih =>
    obtain ⟨kk, w⟩ := e
    by_cases h : kk = k
    · subst h
      simp [lookupA]
    · have h2 : ¬ k = kk := fun hh => h hh.symm
      simp [lookupA, h, h2, ih]

theorem projLen_dictSet (reg : Registry) (x : String) (fam : List (String × Signal)) :
    projLen (dictSet reg x fam) = dictSet (projLen reg) x fam.length := by
  induction reg with
  | nil => rfl
  | cons e rest ih =>
    obtain ⟨kk, w⟩ := e
    by_cases h : kk = x
    · simp [dictSet, projLen, h]
    · simp only [projLen, List.map_cons] at ih ⊢
      simp only [dictSet, if_neg h, List.map_cons]
      rw [ih]

/-! #### The uniqueness enforcer implements the occurrence-counting rename -/

theorem ensureSignal_sim (reg : Registry) (s : Signal)
    (hne : ∀ e ∈ reg, e.snd ≠ []) :
    projLen (ensureSignal reg s).fst = (specRenameSignal (projLen reg) s).fst ∧
    (ensureSignal reg s).snd = (specRenameSignal (projLen reg) s).snd ∧
    (∀ e ∈ (ensureSignal reg s).fst, e.snd ≠ []) := by
  have hlook : ∀ x, lookupA (projLen reg) x = (lookupA reg x).map List.length :=
    fun x => lookupA_map List.length reg x
  match hs : s.id with
  | none =>
    refine ⟨?_, ?_, ?_⟩
    · simp [ensureSignal, specRenameSignal, hs]
    · simp [ensureSignal, specRenameSignal, hs]
    · intro e he
      simp only [ensureSignal, hs] at he
      exact hne e he
  | some x =>
    match hr : lookupA reg x with
    | some fam =>
      have hfam : fam ≠ [] := hne (x, fam) (mem_of_lookupA reg x fam hr)
      refine ⟨?_, ?_, ?_⟩
      · simp only [ensureSignal, specRenameSignal, hs, hr, hlook, Option.map_some',
          Option.getD_some]
        rw [projLen_dictSet]
        simp
      · simp [ensureSignal, specRenameSignal, hs, hr, hlook, hfam]
      · intro e he
        simp only [ensureSignal, hs, hr] at he
        rcases mem_dictSet _ _ _ _ he with h | h
        · exact hne e h
        · simp [h]
    | none =>
      have hproj : lookupA (projLen reg) x = none := by simp [hlook, hr]
      refine ⟨?_, ?_, ?_⟩
      · simp only [ensureSignal, specRenameSignal, hs, hr, hproj, Option.getD_none, if_pos rfl]
        rw [dictSet_of_not_mem _ _ _ hproj]
        simp [projLen]
      · simp [ensureSignal, specRenameSignal, hs, hr, hproj]
      · intro e he
        simp only [ensureSignal, hs, hr] at he
        rcases List.mem_append.mp he with h | h
        · exact hne e h
        · simp at h
          simp [h]

theorem ensureSignals_sim (sigs : List Signal) (reg : Registry)
    (hne : ∀ e ∈ reg, e.snd ≠ []) :
    projLen (ensureSignals reg sigs).fst = (specRenameSignals (projLen reg) sigs).fst ∧
    (ensureSignals reg sigs).snd = (specRenameSignals (projLen reg) sigs).snd ∧
    (∀ e ∈ (ensureSignals reg sigs).fst, e.snd ≠ []) := by
  induction sigs generalizing reg with
  | nil => exact ⟨rfl, rfl, hne⟩
  | cons s rest ih =>
    obtain ⟨h1, h2, h3⟩ := ensureSignal_sim reg s hne
    obtain ⟨ih1, ih2, ih3⟩ := ih (ensureSignal reg s).fst h3
    refine ⟨?_, ?_, ?_⟩
    · simp only [ensureSignals, specRenameSignals, ih1, h1]
    · simp only [ensureSignals, specRenameSignals, ih1, ih2, h1, h2]
    · simpa only [ensureSignals] using ih3

theorem ensureCommands_sim (cmds : List Command) (reg : Registry)
    (hne : ∀ e ∈ reg, e.snd ≠ []) :
    projLen (ensureCommands reg cmds).fst = (specRenameCommands (projLen reg) cmds).fst ∧
    (ensureCommands reg cmds).snd = (specRenameCommands (projLen reg) cmds).snd ∧
    (∀ e ∈ (ensureCommands reg cmds).fst, e.snd ≠ []) := by
  induction cmds generalizing reg with
  | nil => exact ⟨rfl, rfl, hne⟩
  | cons c rest ih =>
    match hc : c.signals with
    | none =>
      obtain ⟨ih1, ih2, ih3⟩ := ih reg hne
      refine ⟨?_, ?_, ?_⟩
      · simp only [ensureCommands, specRenameCommands, hc, ih1]
      · simp only [ensureCommands, specRenameCommands, hc, ih1, ih2]
      · intro e he
        simp only [ensureCommands, hc] at he
        exact ih3 e he
    | some sigs =>
      obtain ⟨h1, h2, h3⟩ := ensureSignals_sim sigs reg hne
      obtain ⟨ih1, ih2, ih3⟩ := ih (ensureSignals reg sigs).fst h3
      refine ⟨?_, ?_, ?_⟩
      · simp only [ensureCommands, specRenameCommands, hc, ih1, h1]
      · simp only [ensureCommands, specRenameCommands, hc, ih1, ih2, h1, h2]
      · intro e he
        simp only [ensureCommands, hc] at he
        exact ih3 e he

/-! #### The renaming walk at the identifier level -/

theorem renameIds_append (counts : List (String × Nat)) (l1 l2 : List String) :
    renameIds counts (l1 ++ l2) =
      ((renameIds (renameIds counts l1).fst l2).fst,
       (renameIds counts l1).snd ++ (renameIds (renameIds counts l1).fst l2).snd) := by
  induction l1 generalizing counts with
  | nil => simp [renameIds]
  | cons x xs ih => simp [renameIds, ih]

theorem specRenameSignals_ids (sigs : List Signal) (counts : List (String × Nat)) :
    (specRenameSignals counts sigs).fst =
      (renameIds counts (sigs.filterMap Signal.id)).fst ∧
    (specRenameSignals counts sigs).snd.filterMap Signal.id =
      (renameIds counts (sigs.filterMap Signal.id)).snd := by
  induction sigs generalizing counts with
  | nil => exact ⟨rfl, rfl⟩
  | cons s rest ih =>
    match hs : s.id with
    | none =>
      obtain ⟨ih1, ih2⟩ := ih counts
      refine ⟨?_, ?_⟩
      · simp only [specRenameSignals, specRenameSignal, hs, List.filterMap_cons, ih1]
      · simp only [specRenameSignals, specRenameSignal, hs, List.filterMap_cons, ih1, ih2]
    | some x =>
      obtain ⟨ih1, ih2⟩ := ih (dictSet counts x ((lookupA counts x).getD 0 + 1))
      refine ⟨?_, ?_⟩
      · simp only [specRenameSignals, specRenameSignal, hs, List.filterMap_cons, renameIds, ih1]
      · simp only [specRenameSignals, specRenameSignal, hs, List.filterMap_cons, renameIds,
          ih1, ih2, emitId]
        by_cases h1 : (lookupA counts x).getD 0 + 1 = 1
        · simp [h1, hs]
        · simp [h1]

theorem specRenameCommands_ids (cmds : List Command) (counts : List (String × Nat)) :
    (specRenameCommands counts cmds).fst = (renameIds counts (idWalk cmds)).fst ∧
    idWalk (specRenameCommands counts cmds).snd = (renameIds counts (idWalk cmds)).snd := by
  induction cmds generalizing counts with
  | nil => exact ⟨rfl, rfl⟩
  | cons c rest ih =>
    match hc : c.signals with
    | none =>
      obtain ⟨ih1, ih2⟩ := ih counts
      refine ⟨?_, ?_⟩
      · simp only [specRenameCommands, hc, idWalk, List.map_cons, List.flatten_cons,
          Option.getD_none, List.filterMap_nil, List.nil_append]
        simpa [idWalk] using ih1
      · simp only [specRenameCommands, hc, idWalk, List.map_cons, List.flatten_cons,
          Option.getD_none, List.filterMap_nil, List.nil_append]
        simpa [idWalk] using ih2
    | some sigs =>
      obtain ⟨hs1, hs2⟩ := specRenameSignals_ids sigs counts
      obtain ⟨ih1, ih2⟩ := ih (specRenameSignals counts sigs).fst
      have hw : idWalk (c :: rest) = sigs.filterMap Signal.id ++ idWalk rest := by
        simp [idWalk, hc]
      refine ⟨?_, ?_⟩
      · rw [hw, renameIds_append]
        simp only [specRenameCommands, hc]
        rw [ih1, hs1]
      · rw [hw, renameIds_append]
        simp only [specRenameCommands, hc]
        have : idWalk ({ c with signals := some (specRenameSignals counts sigs).snd } ::
            (specRenameCommands (specRenameSignals counts sigs).fst rest).snd) =
            (specRenameSignals counts sigs).snd.filterMap Signal.id ++
              idWalk (specRenameCommands (specRenameSignals counts sigs).fst rest).snd := by
          simp [idWalk]
        rw [this, ih2, hs2, hs1]

/-! #### Decimal rendering of version numbers -/

theorem digitChar_ne_underscore (n : Nat) : Nat.digitChar n ≠ '_' := by
  rcases Nat.lt_or_ge n 16 with h | h
  · interval_cases n <;> decide
  · unfold Nat.digitChar
    rw [if_neg (by omega : ¬ n = 0), if_neg (by omega : ¬ n = 1),
      if_neg (by omega : ¬ n = 2), if_neg (by omega : ¬ n = 3),
      if_neg (by omega : ¬ n = 4), if_neg (by omega : ¬ n = 5),
      if_neg (by omega : ¬ n = 6), if_neg (by omega : ¬ n = 7),
      if_neg (by omega : ¬ n = 8), if_neg (by omega : ¬ n = 9),
      if_neg (by omega : ¬ n = 10), if_neg (by omega : ¬ n = 11),
      if_neg (by omega : ¬ n = 12), if_neg (by omega : ¬ n = 13),
      if_neg (by omega : ¬ n = 14), if_neg (by omega : ¬ n = 15)]
    decide

theorem toDigitsCore_append (fuel : Nat) : ∀ (n : Nat) (ds : List Char),
    Nat.toDigitsCore 10 fuel n ds = Nat.toDigitsCore 10 fuel n [] ++ ds := by
  induction fuel with
  | zero => intro n ds; rfl
  | succ f ih =>
    intro n ds
    simp only [Nat.toDigitsCore]
    by_cases h : n / 10 = 0
    · simp [h]
    · simp only [if_neg h]
      rw [ih (n / 10) (Nat.digitChar (n % 10) :: ds), ih (n / 10) [Nat.digitChar (n % 10)]]
      simp

theorem mem_toDigitsCore (fuel : Nat) : ∀ (n : Nat) (ds : List Char) (c : Char),
    c ∈ Nat.toDigitsCore 10 fuel n ds → c ∈ ds ∨ ∃ k, c = Nat.digitChar k := by
  induction fuel with
  | zero => intro n ds c h; exact Or.inl h
  | succ f ih =>
    intro n ds c h
    simp only [Nat.toDigitsCore] at h
    by_cases h2 : n / 10 = 0
    · rw [if_pos h2] at h
      rcases List.mem_cons.mp h with h3 | h3
      · exact Or.inr ⟨n % 10, h3⟩
      · exact Or.inl h3
    · rw [if_neg h2] at h
      rcases ih (n / 10) _ c h with h3 | h3
      · rcases List.mem_cons.mp h3 with h4 | h4
        · exact Or.inr ⟨n % 10, h4⟩
        · exact Or.inl h4
      · exact Or.inr h3

theorem underscore_not_mem_repr (n : Nat) : '_' ∉ (Nat.repr n).data := by
  intro h
  have h2 : '_' ∈ Nat.toDigitsCore 10 (n + 1) n [] := h
  rcases mem_toDigitsCore (n + 1) n [] '_' h2 with h3 | ⟨k, h3⟩
  · simp at h3
  · exact digitChar_ne_underscore k h3.symm

theorem toDigitsCore_fuel (n : Nat) : ∀ f1 f2 : Nat, n < f1 → n < f2 →
    Nat.toDigitsCore 10 f1 n [] = Nat.toDigitsCore 10 f2 n [] := by
  induction n using Nat.strong_induction_on with
  | _ n ih =>
    intro f1 f2 h1 h2
    cases f1 with
    | zero => omega
    | succ fa =>
      cases f2 with
      | zero => omega
      | succ fb =>
        simp only [Nat.toDigitsCore]
        by_cases h : n / 10 = 0
        · simp [h]
        · simp only [if_neg h]
          have hn0 : 0 < n := by
            rcases Nat.eq_zero_or_pos n with h0 | h0
            · exact absurd (by simp [h0]) h
            · exact h0
          have hn10 : n / 10 < n := Nat.div_lt_self hn0 (by norm_num)
          have ha : n / 10 < fa := by omega
          have hb : n / 10 < fb := by omega
          rw [toDigitsCore_append fa, toDigitsCore_append fb, ih (n / 10) hn10 fa fb ha hb]

theorem toDigits_small (n : Nat) (h : n < 10) : Nat.toDigits 10 n = [Nat.digitChar n] := by
  have h0 : n / 10 = 0 := Nat.div_eq_of_lt h
  simp [Nat.toDigits, Nat.toDigitsCore, h0, Nat.mod_eq_of_lt h]

theorem toDigitsCore_succ (f n : Nat) (ds : List Char) :
    Nat.toDigitsCore 10 (f + 1) n ds =
      if n / 10 = 0 then Nat.digitChar (n % 10) :: ds
      else Nat.toDigitsCore 10 f (n / 10) (Nat.digitChar (n % 10) :: ds) := rfl

theorem toDigits_step (n : Nat) (h : 10 ≤ n) :
    Nat.toDigits 10 n = Nat.toDigits 10 (n / 10) ++ [Nat.digitChar (n % 10)] := by
  have h0 : ¬ n / 10 = 0 := by
    intro hh
    have h10 : n / 10 = 0 ↔ n < 10 := Nat.div_eq_zero_iff (by norm_num)
    omega
  have hlt : n / 10 < n := Nat.div_lt_self (by omega) (by norm_num)
  rw [show Nat.toDigits 10 n = Nat.toDigitsCore 10 (n + 1) n [] from rfl]
  rw [toDigitsCore_succ, if_neg h0, toDigitsCore_append]
  rw [show Nat.toDigits 10 (n / 10) = Nat.toDigitsCore 10 (n / 10 + 1) (n / 10) [] from rfl]
  rw [toDigitsCore_fuel (n / 10) n (n / 10 + 1) hlt (Nat.lt_succ_self _)]

theorem fromDigits_cons (a : Nat) (c : Char) (cs : List Char) :
    fromDigits a (c :: cs) = fromDigits (10 * a + (c.toNat - 48)) cs := rfl

theorem fromDigits_append (a : Nat) (xs ys : List Char) :
    fromDigits a (xs ++ ys) = fromDigits (fromDigits a xs) ys := by
  induction xs generalizing a with
  | nil => rfl
  | cons c cs ih => rw [List.cons_append, fromDigits_cons, fromDigits_cons, ih]

theorem digitChar_val (k : Nat) (h : k < 10) : (Nat.digitChar k).toNat - 48 = k := by
  interval_cases k <;> decide

theorem fromDigits_toDigits (n : Nat) : fromDigits 0 (Nat.toDigits 10 n) = n := by
  induction n using Nat.strong_induction_on with
  | _ n ih =>
    by_cases h : n < 10
    · rw [toDigits_small n h, fromDigits_cons]
      show 10 * 0 + ((Nat.digitChar n).toNat - 48) = n
      rw [digitChar_val n h]
      omega
    · push_neg at h
      rw [toDigits_step n h, fromDigits_append]
      rw [ih (n / 10) (Nat.div_lt_self (by omega) (by norm_num))]
      have hm : n % 10 < 10 := Nat.mod_lt n (by norm_num)
      rw [fromDigits_cons]
      show 10 * (n / 10) + ((Nat.digitChar (n % 10)).toNat - 48) = n
      rw [digitChar_val (n % 10) hm]
      omega

theorem repr_inj {m n : Nat} (h : Nat.repr m = Nat.repr n) : m = n := by
  have hd : Nat.toDigits 10 m = Nat.toDigits 10 n := congrArg String.data h
  calc m = fromDigits 0 (Nat.toDigits 10 m) := (fromDigits_toDigits m).symm
    _ = fromDigits 0 (Nat.toDigits 10 n) := by rw [hd]
    _ = n := fromDigits_toDigits n

theorem underscore_sep {s t : List Char} (hs : '_' ∉ s) (ht : '_' ∉ t) :
    ∀ {a b : List Char}, a ++ '_' :: 'V' :: s = b ++ '_' :: 'V' :: t → a = b ∧ s = t := by
  intro a
  induction a with
  | nil =>
    intro b h
    cases b with
    | nil =>
      simp only [List.nil_append, List.cons.injEq] at h
      exact ⟨rfl, h.2.2⟩
    | cons c bs =>
      simp only [List.nil_append, List.cons_append, List.cons.injEq] at h
      obtain ⟨hc, h⟩ := h
      cases bs with
      | nil =>
        simp only [List.nil_append, List.cons.injEq] at h
        exact absurd h.1 (by decide)
      | cons c2 bs2 =>
        simp only [List.cons_append, List.cons.injEq] at h
        obtain ⟨hc2, h⟩ := h
        exact absurd (h ▸ List.mem_append.mpr (Or.inr (List.mem_cons_self _ _))) hs
  | cons c as ih =>
    intro b h
    cases b with
    | nil =>
      simp only [List.cons_append, List.nil_append, List.cons.injEq] at h
      obtain ⟨hc, h⟩ := h
      cases as with
      | nil =>
        simp only [List.nil_append, List.cons.injEq] at h
        exact absurd h.1 (by decide)
      | cons c2 as2 =>
        simp only [List.cons_append, List.cons.injEq] at h
        obtain ⟨hc2, h⟩ := h
        exact absurd (h.symm ▸ List.mem_append.mpr (Or.inr (List.mem_cons_self _ _))) ht
    | cons c2 bs =>
      simp only [List.cons_append, List.cons.injEq] at h
      obtain ⟨hc, h⟩ := h
      obtain ⟨h1, h2⟩ := ih h
      exact ⟨by rw [hc, h1], h2⟩

theorem string_append_vsuffix_inj {x y : String} {i j : Nat}
    (h : x ++ "_V" ++ Nat.repr i = y ++ "_V" ++ Nat.repr j) : x = y ∧ i = j := by
  have hd : x.data ++ '_' :: 'V' :: (Nat.repr i).data =
      y.data ++ '_' :: 'V' :: (Nat.repr j).data := by
    have := congrArg String.data h
    simpa [String.data_append] using this
  obtain ⟨h1, h2⟩ := underscore_sep (underscore_not_mem_repr i) (underscore_not_mem_repr j) hd
  exact ⟨String.ext h1, repr_inj (String.ext h2)⟩

/-! #### Injectivity of the emitted identifiers under the no-collision
precondition -/

theorem emitId_inj {l : List String} (H : noVersionCollision l)
    {x y : String} (hx : x ∈ l) (hy : y ∈ l) {i j : Nat}
    (hi1 : 1 ≤ i) (hi2 : i ≤ List.count x l) (hj1 : 1 ≤ j) (hj2 : j ≤ List.count y l)
    (heq : emitId x i = emitId y j) : x = y ∧ i = j := by
  have hcx : List.count x l ≤ l.length := List.count_le_length x l
  have hcy : List.count y l ≤ l.length := List.count_le_length y l
  by_cases hi : i = 1 <;> by_cases hj : j = 1
  · subst hi hj
    simp only [emitId, if_pos rfl] at heq
    exact ⟨heq, rfl⟩
  · subst hi
    simp only [emitId, if_pos rfl, if_neg hj] at heq
    have hjr : j ∈ List.range (l.length + 1) := List.mem_range.mpr (by omega)
    exact absurd heq (H x hx y hy j hjr (by omega))
  · subst hj
    simp only [emitId, if_pos rfl, if_neg hi] at heq
    have hir : i ∈ List.range (l.length + 1) := List.mem_range.mpr (by omega)
    exact absurd heq.symm (H y hy x hx i hir (by omega))
  · simp only [emitId, if_neg hi, if_neg hj] at heq
    exact string_append_vsuffix_inj heq

theorem renameIds_nodup_aux (l : List String) (H : noVersionCollision l) :
    ∀ (rest p : List String), l = p ++ rest →
    ∀ (counts : List (String × Nat)) (emitted : List String),
      (∀ z : String, lookupA counts z =
        if 0 < List.count z p then some (List.count z p) else none) →
      (∀ z : String, z ∈ emitted ↔
        ∃ y, y ∈ p ∧ ∃ j, 1 ≤ j ∧ j ≤ List.count y p ∧ z = emitId y j) →
      emitted.Nodup →
      (emitted ++ (renameIds counts rest).snd).Nodup := by
  intro rest
  induction rest with
  | nil =>
    intro p hl counts emitted hc he hn
    simpa [renameIds] using hn
  | cons x rest' ih =>
    intro p hl counts emitted hc he hn
    have hcount : (lookupA counts x).getD 0 = List.count x p := by
      rw [hc x]
      by_cases h : 0 < List.count x p
      · simp [h]
      · simp only [if_neg h, Option.getD_none]
        omega
    have hxl : x ∈ l := hl ▸ List.mem_append.mpr (Or.inr (List.mem_cons_self _ _))
    have hcxl : List.count x p + 1 ≤ List.count x l := by
      rw [hl, List.count_append, List.count_cons_self]
      omega
    have hcyl : ∀ y, y ∈ p → List.count y p ≤ List.count y l := by
      intro y _
      rw [hl, List.count_append]
      omega
    have hxx : List.count x (p ++ [x]) = List.count x p + 1 := by
      rw [List.count_append]
      simp
    have hzz : ∀ y : String, y ≠ x → List.count y (p ++ [x]) = List.count y p := by
      intro y hyx
      rw [List.count_append,
        List.count_eq_zero_of_not_mem (fun hh => hyx (List.mem_singleton.mp hh))]
      omega
    -- the new emission
    have hstep : (renameIds counts (x :: rest')).snd =
        emitId x (List.count x p + 1) ::
          (renameIds (dictSet counts x (List.count x p + 1)) rest').snd := by
      simp only [renameIds, hcount]
    have hnot : emitId x (List.count x p + 1) ∉ emitted := by
      intro hmem
      obtain ⟨y, hyp, j, hj1, hj2, heq⟩ := (he _).mp hmem
      obtain ⟨hxy, hij⟩ := emitId_inj H hxl (hl ▸ List.mem_append.mpr (Or.inl hyp))
        (by omega) hcxl hj1 (le_trans hj2 (hcyl y hyp)) heq
      subst hxy
      omega
    have hn' : (emitted ++ [emitId x (List.count x p + 1)]).Nodup := by
      rw [List.nodup_append]
      exact ⟨hn, List.nodup_singleton _, by
        intro a ha hb
        rw [List.mem_singleton] at hb
        exact hnot (hb ▸ ha)⟩
    have hc' : ∀ z : String, lookupA (dictSet counts x (List.count x p + 1)) z =
        if 0 < List.count z (p ++ [x]) then some (List.count z (p ++ [x])) else none := by
      intro z
      rw [lookupA_dictSet]
      by_cases h : x = z
      · subst h
        rw [if_pos rfl, hxx, if_pos (by omega)]
      · have hzx : z ≠ x := fun hh => h hh.symm
        rw [if_neg h, hzz z hzx, hc z]
    have he' : ∀ z : String, z ∈ emitted ++ [emitId x (List.count x p + 1)] ↔
        ∃ y, y ∈ p ++ [x] ∧ ∃ j, 1 ≤ j ∧ j ≤ List.count y (p ++ [x]) ∧ z = emitId y j := by
      intro z
      rw [List.mem_append, List.mem_singleton, he z]
      constructor
      · rintro (⟨y, hyp, j, hj1, hj2, rfl⟩ | rfl)
        · refine ⟨y, List.mem_append.mpr (Or.inl hyp), j, hj1, ?_, rfl⟩
          rw [List.count_append]
          omega
        · refine ⟨x, List.mem_append.mpr (Or.inr (List.mem_singleton.mpr rfl)),
            List.count x p + 1, by omega, ?_, rfl⟩
          rw [hxx]
      · rintro ⟨y, hyp', j, hj1, hj2, rfl⟩
        by_cases hyx : y = x
        · subst hyx
          rw [hxx] at hj2
          by_cases hj3 : j ≤ List.count y p
          · have hyp : y ∈ p := List.count_pos_iff.mp (by omega)
            exact Or.inl ⟨y, hyp, j, hj1, hj3, rfl⟩
          · have hj4 : j = List.count y p + 1 := by omega
            exact Or.inr (by rw [hj4])
        · rw [hzz y hyx] at hj2
          have hyp : y ∈ p := by
            rcases List.mem_append.mp hyp' with h | h
            · exact h
            · exact absurd (List.mem_singleton.mp h) hyx
          exact Or.inl ⟨y, hyp, j, hj1, hj2, rfl⟩
    have hl' : l = (p ++ [x]) ++ rest' := by
      rw [hl, List.append_assoc, List.singleton_append]
    have := ih (p ++ [x]) hl' (dictSet counts x (List.count x p + 1))
      (emitted ++ [emitId x (List.count x p + 1)]) hc' he' hn'
    rw [hstep]
    rw [show emitted ++ emitId x (List.count x p + 1) ::
        (renameIds (dictSet counts x (List.count x p + 1)) rest').snd =
      (emitted ++ [emitId x (List.count x p + 1)]) ++
        (renameIds (dictSet counts x (List.count x p + 1)) rest').snd by
      rw [List.append_assoc, List.singleton_append]]
    exact this

theorem renameIds_nodup (l : List String) (H : noVersionCollision l) :
    (renameIds [] l).snd.Nodup := by
  have h := renameIds_nodup_aux l H l [] rfl [] []
    (by intro z; simp [lookupA]) (by intro z; simp) List.nodup_nil
  simpa using h

/-! #### Claims C3 and C1 -/

/-- C3: in ensure_unique_signal_ids, every repeat occurrence of a signal
identifier — regardless of whether its definition matches an earlier
occurrence — is renamed to `id_Vn` where n is one plus the number of
occurrences of that original identifier seen so far in walk order, the
first occurrence keeps the bare identifier, and signals without an id field
pass through unchanged: the commands output coincides with the
occurrence-counting rename walk. -/
theorem C3_every_repeat_occurrence_renamed (m : Signalset) :
    (ensure_unique_signal_ids m).commands = (specRenameCommands [] m.commands).snd := by
  obtain ⟨h1, h2, h3⟩ :=
    ensureCommands_sim m.commands [] (fun e he => absurd he (List.not_mem_nil e))
  calc (ensure_unique_signal_ids m).commands
      = (ensureCommands [] m.commands).snd := rfl
    _ = (specRenameCommands (projLen []) m.commands).snd := h2
    _ = (specRenameCommands [] m.commands).snd := rfl

/-- C1 (amended): provided no identifier occurring in the input collides
with a generated version-suffixed identifier, after
ensure_unique_signal_ids the identifier walk of the output equals the
first-seen-order occurrence renaming of the input walk, and no two signals
of the output share an identifier. -/
theorem C1_global_uniqueness_after_enforcement (m : Signalset)
    (H : noVersionCollision (idWalk m.commands)) :
    idWalk (ensure_unique_signal_ids m).commands =
      (renameIds [] (idWalk m.commands)).snd ∧
    (idWalk (ensure_unique_signal_ids m).commands).Nodup := by
  obtain ⟨h1, h2, h3⟩ :=
    ensureCommands_sim m.commands [] (fun e he => absurd he (List.not_mem_nil e))
  obtain ⟨w1, w2⟩ := specRenameCommands_ids m.commands []
  have hw : idWalk (ensure_unique_signal_ids m).commands =
      (renameIds [] (idWalk m.commands)).snd := by
    calc idWalk (ensure_unique_signal_ids m).commands
        = idWalk (ensureCommands [] m.commands).snd := rfl
      _ = idWalk (specRenameCommands [] m.commands).snd := by
          rw [h2]
          rfl
      _ = (renameIds [] (idWalk m.commands)).snd := w2
  exact ⟨hw, hw ▸ renameIds_nodup _ H⟩

/-- C1 counterexample: on an input whose commands carry signals X, X and
X_V2, the enforcer emits X, X_V2 and X_V2 — two output signals share an
identifier, so the claimed unconditional global uniqueness fails. -/
theorem C1_counterexample :
    idWalk (ensure_unique_signal_ids exC1).commands = ["X", "X_V2", "X_V2"] ∧
    ¬ (idWalk (ensure_unique_signal_ids exC1).commands).Nodup := by
  constructor
  · decide
  · decide

/-- C1 witness: a collision-free input with a duplicated identifier
satisfies the precondition and gets a duplicate-free output. -/
theorem C1_witness :
    noVersionCollision (idWalk exC1w.commands) ∧
    (idWalk (ensure_unique_signal_ids exC1w).commands).Nodup :=
  ⟨by decide, (C1_global_uniqueness_after_enforcement exC1w (by decide)).2⟩

/-! #### Every merged command carries an identity key (claims C6, C9) -/

theorem get_command_id_congr (c c' : Command) (h1 : c'.hdr = c.hdr) (h2 : c'.eax = c.eax)
    (h3 : c'.cmd = c.cmd) (h4 : c'.filter = c.filter) :
    get_command_id c' = get_command_id c := by
  unfold get_command_id firstServiceId cmdDict
  rw [h1, h2, h3, h4]

theorem mergeIntoExisting_keyed (cmds : List Command) (idx : Nat) (newCmd : Command)
    (hinv : ∀ c' ∈ cmds, (get_command_id c').isSome) :
    ∀ c' ∈ mergeIntoExisting cmds idx newCmd, (get_command_id c').isSome := by
  intro c' hc'
  unfold mergeIntoExisting at hc'
  match hidx : cmds[idx]? with
  | none =>
    rw [hidx] at hc'
    exact hinv c' hc'
  | some existing =>
    rw [hidx] at hc'
    dsimp only at hc'
    split at hc'
    · exact hinv c' hc'
    · rcases List.mem_or_eq_of_mem_set hc' with h | h
      · exact hinv c' h
      · subst h
        have hex : existing ∈ cmds := List.getElem?_mem hidx
        exact hinv existing hex

theorem get_command_id_normalize (c : Command) :
    get_command_id (normalizeCommand c) = get_command_id c := by
  unfold normalizeCommand
  split <;> rfl

theorem get_command_id_processed (spfx : Option String) (src : SourceInfo) (cmd_id : String)
    (regs : RegState) (c : Command) :
    get_command_id (processCommandSignals spfx src cmd_id regs c).snd = get_command_id c := by
  unfold processCommandSignals
  split <;> rfl

theorem processCommand_keyed (spfx : Option String) (src : SourceInfo) (st : PState)
    (c : Command) (hinv : ∀ c' ∈ st.mergedCommands, (get_command_id c').isSome) :
    ∀ c' ∈ (processCommand spfx src st c).mergedCommands, (get_command_id c').isSome := by
  intro c' hc'
  unfold processCommand at hc'
  match hid : get_command_id c with
  | none =>
    rw [hid] at hc'
    exact hinv c' hc'
  | some cmd_id =>
    rw [hid] at hc'
    dsimp only at hc'
    have hkeyr : get_command_id
        (processCommandSignals spfx src cmd_id st.regs (normalizeCommand c)).snd =
        some cmd_id := by
      rw [get_command_id_processed, get_command_id_normalize]
      exact hid
    match hlk : lookupA st.commandMap cmd_id with
    | some idx =>
      rw [hlk] at hc'
      exact mergeIntoExisting_keyed st.mergedCommands idx _ hinv c' hc'
    | none =>
      rw [hlk] at hc'
      rcases List.mem_append.mp hc' with h | h
      · exact hinv c' h
      · rw [List.mem_singleton.mp h, hkeyr]
        rfl

theorem processCommands_keyed (spfx : Option String) (src : SourceInfo)
    (cmds : List Command) : ∀ (st : PState),
    (∀ c' ∈ st.mergedCommands, (get_command_id c').isSome) →
    ∀ c' ∈ (processCommands spfx src st cmds).mergedCommands, (get_command_id c').isSome := by
  induction cmds with
  | nil => intro st hinv; exact hinv
  | cons c rest ih =>
    intro st hinv
    exact ih (processCommand spfx src st c) (processCommand_keyed spfx src st c hinv)

theorem processFiles_keyed (make model : String) (spfx : Option String)
    (loaded : List (List Command × String)) : ∀ (st : PState),
    (∀ c' ∈ st.mergedCommands, (get_command_id c').isSome) →
    ∀ c' ∈ (processFiles make model spfx st loaded).mergedCommands,
      (get_command_id c').isSome := by
  induction loaded with
  | nil => intro st hinv; exact hinv
  | cons doc rest ih =>
    obtain ⟨cmds, filename⟩ := doc
    intro st hinv
    exact ih _ (processCommands_keyed spfx _ cmds st hinv)

theorem process_signalsets_keyed (loaded : List (List Command × String)) (make model : String)
    (spfx : Option String) :
    ∀ c' ∈ (process_signalsets loaded make model spfx).commands, (get_command_id c').isSome := by
  intro c' hc'
  exact processFiles_keyed make model spfx loaded initPState
    (fun c hc => absurd hc (List.not_mem_nil c)) c' hc'

theorem fleetMergeSignals_keyed (cmds : List Command) (idx : Nat) (c : Command)
    (hinv : ∀ c' ∈ cmds, (get_command_id c').isSome) :
    ∀ c' ∈ fleetMergeSignals cmds idx c, (get_command_id c').isSome := by
  intro c' hc'
  unfold fleetMergeSignals at hc'
  match hidx : cmds[idx]? with
  | none =>
    rw [hidx] at hc'
    exact hinv c' hc'
  | some existing =>
    rw [hidx] at hc'
    dsimp only at hc'
    split at hc'
    · exact hinv c' hc'
    · rcases List.mem_or_eq_of_mem_set hc' with h | h
      · exact hinv c' h
      · subst h
        have hex : existing ∈ cmds := List.getElem?_mem hidx
        exact hinv existing hex

theorem fleetMergeLoop_keyed (cm : List (String × Nat)) (repoCmds : List Command) :
    ∀ (acc : List Command), (∀ c' ∈ acc, (get_command_id c').isSome) →
    ∀ c' ∈ fleetMergeLoop cm acc repoCmds, (get_command_id c').isSome := by
  induction repoCmds with
  | nil => intro acc hinv; exact hinv
  | cons c rest ih =>
    intro acc hinv
    unfold fleetMergeLoop
    match hid : get_command_id c with
    | none =>
      dsimp only
      exact ih acc hinv
    | some cmd_id =>
      dsimp only
      match hlk : lookupA cm cmd_id with
      | some idx =>
        dsimp only
        exact ih _ (fleetMergeSignals_keyed acc idx c hinv)
      | none =>
        dsimp only
        refine ih _ ?_
        intro c' hc'
        rcases List.mem_append.mp hc' with h | h
        · exact hinv c' h
        · rw [List.mem_singleton.mp h, hid]
          rfl

theorem fleetAggregate_keyed (repoLists : List (List Command)) :
    ∀ c' ∈ fleetAggregate repoLists, (get_command_id c').isSome := by
  have haux : ∀ (ls : List (List Command)) (acc : List Command),
      (∀ c' ∈ acc, (get_command_id c').isSome) →
      ∀ c' ∈ ls.foldl fleetMergeStep acc, (get_command_id c').isSome := by
    intro ls
    induction ls with
    | nil => intro acc hinv; exact hinv
    | cons repo rest ih =>
      intro acc hinv
      exact ih _ (fleetMergeLoop_keyed _ repo acc hinv)
  exact haux repoLists [] (fun c hc => absurd hc (List.not_mem_nil c))

/-! #### Claims C6 and C9 -/

/-- C6: a command whose first service key is neither 21 nor 22 has no
identity key and occurs in no per-vehicle merged signalset and in no
fleet-wide aggregation result. -/
theorem C6_non_diagnostic_services_excluded (c : Command)
    (h21 : firstServiceId c ≠ "21") (h22 : firstServiceId c ≠ "22") :
    get_command_id c = none ∧
    (∀ (loaded : List (List Command × String)) (make model : String) (spfx : Option String),
      c ∉ (process_signalsets loaded make model spfx).commands) ∧
    (∀ repoLists : List (List Command), c ∉ fleetAggregate repoLists) := by
  have hnone : get_command_id c = none := by
    unfold get_command_id
    rw [if_pos ⟨h21, h22⟩]
  refine ⟨hnone, ?_, ?_⟩
  · intro loaded make model spfx hmem
    have := process_signalsets_keyed loaded make model spfx c hmem
    rw [hnone] at this
    exact absurd this (by decide)
  · intro repoLists hmem
    have := fleetAggregate_keyed repoLists c hmem
    rw [hnone] at this
    exact absurd this (by decide)

/-- C6 witness command: a standardized service-01 command. -/
def exC6 : Command := mkCommand "7E0" "01" "0C" [mkSignal (some "RPM") "rpm" [("fmt", "T")]]

/-- C6 witness: the service-01 command is excluded everywhere. -/
theorem C6_witness :
    get_command_id exC6 = none ∧
    exC6 ∉ (process_signalsets [([exC6], "default.json")] "Toyota" "Camry" none).commands ∧
    exC6 ∉ fleetAggregate [[exC6]] := by
  obtain ⟨h1, h2, h3⟩ := C6_non_diagnostic_services_excluded exC6 (by decide) (by decide)
  exact ⟨h1, h2 _ _ _ _, h3 _⟩

/-- C9: a command with a missing or empty cmd mapping is treated as having
the empty service id, gets no identity key (the guarded first-key access
is total, no failure path exists in the embedding), and is excluded from
per-vehicle and fleet-wide aggregation exactly like a non-21/22 command. -/
theorem C9_missing_cmd_mapping_excluded (c : Command)
    (h : c.cmd = none ∨ c.cmd = some []) :
    firstServiceId c = "" ∧ get_command_id c = none ∧
    (∀ (loaded : List (List Command × String)) (make model : String) (spfx : Option String),
      c ∉ (process_signalsets loaded make model spfx).commands) ∧
    (∀ repoLists : List (List Command), c ∉ fleetAggregate repoLists) := by
  have hsid : firstServiceId c = "" := by
    unfold firstServiceId
    rcases h with h | h <;> rw [h]
  have hnone : get_command_id c = none := by
    unfold get_command_id
    rw [if_pos ⟨by rw [hsid]; decide, by rw [hsid]; decide⟩]
  refine ⟨hsid, hnone, ?_, ?_⟩
  · intro loaded make model spfx hmem
    have := process_signalsets_keyed loaded make model spfx c hmem
    rw [hnone] at this
    exact absurd this (by decide)
  · intro repoLists hmem
    have := fleetAggregate_keyed repoLists c hmem
    rw [hnone] at this
    exact absurd this (by decide)

/-- C9 witness command: carries signals but no cmd mapping. -/
def exC9 : Command :=
  { hdr := some "7E0", eax := none, cmd := none, filter := none, dbg := none,
    dbgfilter := none, description := none,
    signals := some [mkSignal (some "S") "s" [("fmt", "T")]], rest := [] }

/-- C9 witness: the command without a cmd mapping is excluded everywhere. -/
theorem C9_witness :
    firstServiceId exC9 = "" ∧ get_command_id exC9 = none ∧
    exC9 ∉ (process_signalsets [([exC9], "default.json")] "Toyota" "Camry" none).commands ∧
    exC9 ∉ fleetAggregate [[exC9]] := by
  obtain ⟨h1, h2, h3, h4⟩ := C9_missing_cmd_mapping_excluded exC9 (Or.inl rfl)
  exact ⟨h1, h2, h3 _ _ _ _, h4 _⟩

/-! #### Claim C7 -/

theorem drop_findIdx_underscore (l : List Char) :
    l.drop (l.findIdx (fun c => c = '_')) = l.dropWhile (fun c => c ≠ '_') := by
  induction l with
  | nil => rfl
  | cons c cs ih =>
    by_cases h : c = '_'
    · simp [List.findIdx_cons, List.dropWhile_cons, h]
    · simp [List.findIdx_cons, List.dropWhile_cons, h, ih]

/-- C7: for a non-empty identifier and a non-empty prefix,
replace_signal_prefix maps an identifier containing an underscore to the
prefix followed by the suffix from its first underscore on, and an
identifier without an underscore to prefix, underscore, identifier. -/
theorem C7_replace_signal_prefix_spec (signal_id newPfx : String)
    (h1 : signal_id ≠ "") (h2 : newPfx ≠ "") :
    ('_' ∈ signal_id.data →
      replace_signal_prefix signal_id newPfx =
        newPfx ++ suffixFromFirstUnderscore signal_id) ∧
    ('_' ∉ signal_id.data →
      replace_signal_prefix signal_id newPfx = newPfx ++ "_" ++ signal_id) := by
  have hcond : ¬ (signal_id = "" ∨ newPfx = "") := by
    rintro (h | h)
    · exact h1 h
    · exact h2 h
  constructor
  · intro hu
    unfold replace_signal_prefix
    rw [if_neg hcond, if_pos hu]
    unfold suffixFromFirstUnderscore
    rw [drop_findIdx_underscore]
  · intro hu
    unfold replace_signal_prefix
    rw [if_neg hcond, if_neg hu]

/-- C7 witness: the documented example RAV4_VSS to TOYOTA_VSS and the
underscore-free case SPEED to TOYOTA_SPEED. -/
theorem C7_witness :
    replace_signal_prefix "RAV4_VSS" "TOYOTA" =
      "TOYOTA" ++ suffixFromFirstUnderscore "RAV4_VSS" ∧
    replace_signal_prefix "SPEED" "TOYOTA" = "TOYOTA" ++ "_" ++ "SPEED" :=
  ⟨(C7_replace_signal_prefix_spec "RAV4_VSS" "TOYOTA" (by decide) (by decide)).1 (by decide),
   (C7_replace_signal_prefix_spec "SPEED" "TOYOTA" (by decide) (by decide)).2 (by decide)⟩

/-! #### Claim C8 -/

/-- C8 (amended): extract_year_range_from_filename returns (y1, y2) exactly
for the filenames ENDING with the pattern dddd-dddd.json (the regex is
anchored only at the end of the name); in process_signalsets the file
2016-2020.json contributes an origin entry with yearRange (2016, 2020)
while default.json contributes one without a year range. -/
theorem C8_year_range_extraction (f : String) (y1 y2 : Nat) :
    (extract_year_range_from_filename f = some (y1, y2) ↔ endsWithYearPattern f y1 y2) ∧
    (process_signalsets [([exC8cmd], "2016-2020.json")] "Toyota" "Camry" none).signalOrigins =
      some [("VSS", [⟨"2016-2020.json", "Toyota", "Camry", "Toyota-Camry",
        some (2016, 2020)⟩])] ∧
    (process_signalsets [([exC8cmd], "default.json")] "Toyota" "Camry" none).signalOrigins =
      some [("VSS", [⟨"default.json", "Toyota", "Camry", "Toyota-Camry", none⟩])] := by
  refine ⟨?_, by decide, by decide⟩
  constructor
  · intro h
    unfold extract_year_range_from_filename at h
    by_cases hlen : f.data.length < 14
    · rw [if_pos hlen] at h
      exact absurd h (by simp)
    · rw [if_neg hlen] at h
      split at h
      case _ a b c d dash e f' g hh dot j s o n heq =>
        split at h
        case _ hcond =>
          obtain ⟨h1, h2, h3, h4, h5, h6, h7, h8, h9, h10, h11, h12, h13, h14⟩ := hcond
          have hy := Option.some.inj h
          have hdecomp : f.data = f.data.take (f.data.length - 14) ++
              f.data.drop (f.data.length - 14) := (List.take_append_drop _ _).symm
          refine ⟨f.data.take (f.data.length - 14), a, b, c, d, e, f', g, hh, ?_,
            h1, h2, h3, h4, h6, h7, h8, h9, ?_, ?_⟩
          · rw [hdecomp, heq]
            subst h5 h10 h11 h12 h13 h14
            simp
          · have := congrArg Prod.fst hy
            simp [yearOfDigits] at this ⊢
            omega
          · have := congrArg Prod.snd hy
            simp [yearOfDigits] at this ⊢
            omega
        case _ => exact absurd h (by simp)
      case _ hne => exact absurd h (by simp)
  · rintro ⟨pre, a, b, c, d, e, f', g, hh, hdecomp, h1, h2, h3, h4, h6, h7, h8, h9, hy1, hy2⟩
    unfold extract_year_range_from_filename
    have hsuffix : f.data = pre ++ [a, b, c, d, '-', e, f', g, hh, '.', 'j', 's', 'o', 'n'] := by
      rw [hdecomp]
      simp
    have hlen : f.data.length = pre.length + 14 := by
      rw [hsuffix]
      simp
    have hnl : ¬ f.data.length < 14 := by omega
    rw [if_neg hnl]
    have hdrop : f.data.drop (f.data.length - 14) =
        [a, b, c, d, '-', e, f', g, hh, '.', 'j', 's', 'o', 'n'] := by
      rw [hlen]
      have h14 : pre.length + 14 - 14 = pre.length := by omega
      rw [h14, hsuffix, List.drop_left]
    rw [hdrop]
    dsimp only
    rw [if_pos (⟨h1, h2, h3, h4, rfl, h6, h7, h8, h9, rfl, rfl, rfl, rfl, rfl⟩ :
      a.isDigit = true ∧ b.isDigit = true ∧ c.isDigit = true ∧ d.isDigit = true ∧
      ('-' : Char) = '-' ∧ e.isDigit = true ∧ f'.isDigit = true ∧ g.isDigit = true ∧
      hh.isDigit = true ∧ ('.' : Char) = '.' ∧ ('j' : Char) = 'j' ∧ ('s' : Char) = 's' ∧
      ('o' : Char) = 'o' ∧ ('n' : Char) = 'n')]
    rw [hy1, hy2]
    rfl

/-- C8 counterexample: the filename x1234-5678.json is not of the whole-name
form dddd-dddd.json, yet the extractor returns (1234, 5678), because the
regex search is anchored only at the end of the string. -/
theorem C8_counterexample :
    extract_year_range_from_filename "x1234-5678.json" = some (1234, 5678) ∧
    wholeNameIsYearPattern "x1234-5678.json" = false := by
  constructor
  · decide
  · decide

/-- C8 witness: the iff applied at the canonical year-range filename. -/
theorem C8_witness : endsWithYearPattern "2016-2020.json" 2016 2020 :=
  ((C8_year_range_extraction "2016-2020.json" 2016 2020).1).mp (by decide)

/-! #### Claim C2 -/

/-- C2: the cross-fleet aggregation loop never merges same-key commands.
The loop meant to fill command_map computes an identity key for every
already-merged command but stores nothing, so the map is always empty and
every 21/22 command of every repository is appended: two vehicles
contributing the same identity key leave two distinct commands with that
key in the fleet-wide result, where the claim requires a single merged
command per key. -/
theorem C2_fleet_merge_by_key_never_happens :
    (∀ cmds : List Command, buildFleetCommandMap cmds = []) ∧
    (extract_data_core exC2repos none).fst.commands.map get_command_id =
      [some "7E0::22:0110:", some "7E0::22:0110:"] ∧
    (extract_data_core exC2repos none).fst.commands.length = 2 := by
  refine ⟨?_, by decide, by decide⟩
  intro cmds
  unfold buildFleetCommandMap
  induction cmds with
  | nil => rfl
  | cons c rest ih => exact ih

/-! #### Claim C4 counterexample -/

/-- C4 counterexample: in the full extraction pipeline two vehicles emit
TOYOTA_ODO under different identity keys; the second occurrence is renamed
TOYOTA_ODO_V2 in the merged output, yet the global signal-origin map handed
to the provenance reporter keeps an entry for TOYOTA_ODO only — the renamed
identifier inherits nothing, because the fleet-wide signalset reaching
ensure_unique_signal_ids no longer carries a _signal_origins map. -/
theorem C4_counterexample :
    idWalk (extract_data_core exC4repos none).fst.commands =
      ["TOYOTA_ODO", "TOYOTA_ODO_V2"] ∧
    ((extract_data_core exC4repos none).snd.map Prod.fst = ["TOYOTA_ODO"]) ∧
    lookupA (extract_data_core exC4repos none).snd "TOYOTA_ODO_V2" = none ∧
    (extract_data_core exC4repos none).fst.signalOrigins = none := by
  refine ⟨by decide, by decide, by decide, by decide⟩

/-! #### The identifier image of the enforcer registry (claims C10, C4) -/

theorem familyIds_one (x : String) : familyIds x 1 = [x] := rfl

theorem familyIds_length (x : String) (k : Nat) (h : 1 ≤ k) :
    (familyIds x k).length = k := by
  simp [familyIds]
  omega

theorem familyIds_succ (x : String) (k : Nat) (h : 1 ≤ k) :
    familyIds x (k + 1) = familyIds x k ++ [x ++ "_V" ++ Nat.repr (k + 1)] := by
  unfold familyIds
  have h1 : k + 1 - 1 = (k - 1) + 1 := by omega
  rw [h1, List.range'_concat]
  have h2 : 2 + (k - 1) = k + 1 := by omega
  simp [h2]

theorem mem_familyIds (x : String) (k : Nat) (h : 1 ≤ k) (v : String) :
    v ∈ familyIds x k ↔ ∃ j, 1 ≤ j ∧ j ≤ k ∧ v = emitId x j := by
  unfold familyIds
  simp only [List.mem_cons, List.mem_map, List.mem_range'_1]
  constructor
  · rintro (rfl | ⟨j, ⟨hj1, hj2⟩, rfl⟩)
    · exact ⟨1, le_rfl, h, rfl⟩
    · refine ⟨j, by omega, by omega, ?_⟩
      unfold emitId
      rw [if_neg (by omega)]
  · rintro ⟨j, hj1, hj2, rfl⟩
    by_cases hj : j = 1
    · subst hj
      exact Or.inl rfl
    · refine Or.inr ⟨j, ⟨by omega, by omega⟩, ?_⟩
      unfold emitId
      rw [if_neg hj]

theorem projIds_dictSet (reg : Registry) (x : String) (fam : List (String × Signal)) :
    projIds (dictSet reg x fam) = dictSet (projIds reg) x (fam.map Prod.fst) := by
  induction reg with
  | nil => rfl
  | cons e rest ih =>
    obtain ⟨kk, w⟩ := e
    by_cases h : kk = x
    · simp [dictSet, projIds, h]
    · simp only [projIds, List.map_cons] at ih ⊢
      simp only [dictSet, if_neg h, List.map_cons]
      rw [ih]

theorem ensureSignal_projIds (reg : Registry) (s : Signal) :
    projIds (ensureSignal reg s).fst =
      match s.id with
      | none => projIds reg
      | some x => regIdsStep (projIds reg) x := by
  have hlook : ∀ x, lookupA (projIds reg) x =
      (lookupA reg x).map (List.map Prod.fst) :=
    fun x => lookupA_map (List.map Prod.fst) reg x
  match hs : s.id with
  | none => simp [ensureSignal, hs]
  | some x =>
    match hr : lookupA reg x with
    | some fam =>
      simp only [ensureSignal, hs, hr, regIdsStep, hlook, Option.map_some']
      rw [projIds_dictSet]
      simp
    | none =>
      have hproj : lookupA (projIds reg) x = none := by simp [hlook, hr]
      simp only [ensureSignal, hs, hr, regIdsStep, hproj]
      simp [projIds]

theorem ensureSignals_projIds (sigs : List Signal) (reg : Registry) :
    projIds (ensureSignals reg sigs).fst =
      regIds (projIds reg) (sigs.filterMap Signal.id) := by
  induction sigs generalizing reg with
  | nil => rfl
  | cons s rest ih =>
    match hs : s.id with
    | none =>
      have h1 := ensureSignal_projIds reg s
      rw [hs] at h1
      simp only [ensureSignals, List.filterMap_cons, hs]
      rw [ih (ensureSignal reg s).fst, h1]
    | some x =>
      have h1 := ensureSignal_projIds reg s
      rw [hs] at h1
      simp only [ensureSignals, List.filterMap_cons, hs, regIds]
      rw [ih (ensureSignal reg s).fst, h1]

theorem regIds_append (r : List (String × List String)) (l1 l2 : List String) :
    regIds r (l1 ++ l2) = regIds (regIds r l1) l2 := by
  induction l1 generalizing r with
  | nil => rfl
  | cons x xs ih => simp [regIds, ih]

theorem ensureCommands_projIds (cmds : List Command) (reg : Registry) :
    projIds (ensureCommands reg cmds).fst = regIds (projIds reg) (idWalk cmds) := by
  induction cmds generalizing reg with
  | nil => rfl
  | cons c rest ih =>
    match hc : c.signals with
    | none =>
      have hw : idWalk (c :: rest) = idWalk rest := by simp [idWalk, hc]
      simp only [ensureCommands, hc]
      rw [ih reg, hw]
    | some sigs =>
      have hw : idWalk (c :: rest) = sigs.filterMap Signal.id ++ idWalk rest := by
        simp [idWalk, hc]
      simp only [ensureCommands, hc]
      rw [ih (ensureSignals reg sigs).fst, hw, regIds_append,
        ensureSignals_projIds sigs reg]

/-! #### Characterization of the registry built along a walk -/

theorem keys_dictSet_of_mem {α : Type} (l : List (String × α)) (k : String) (v : α)
    (h : (lookupA l k).isSome) :
    (dictSet l k v).map Prod.fst = l.map Prod.fst := by
  induction l with
  | nil => simp [lookupA] at h
  | cons e rest ih =>
    obtain ⟨kk, w⟩ := e
    by_cases h2 : kk = k
    · subst h2
      simp [dictSet]
    · simp only [lookupA, if_neg h2] at h
      simp [dictSet, h2, ih h]

theorem regIds_char_aux (rest : List String) : ∀ (p : List String)
    (r : List (String × List String)),
    (∀ x, lookupA r x =
      if 0 < List.count x p then some (familyIds x (List.count x p)) else none) →
    (r.map Prod.fst).Nodup →
    (∀ x, lookupA (regIds r rest) x =
      if 0 < List.count x (p ++ rest) then
        some (familyIds x (List.count x (p ++ rest))) else none) ∧
    ((regIds r rest).map Prod.fst).Nodup := by
  induction rest with
  | nil =>
    intro p r hc hnd
    constructor
    · intro x
      rw [List.append_nil]
      exact hc x
    · exact hnd
  | cons x rest' ih =>
    intro p r hc hnd
    have hassoc : p ++ x :: rest' = (p ++ [x]) ++ rest' := by
      rw [List.append_assoc, List.singleton_append]
    have hxx : List.count x (p ++ [x]) = List.count x p + 1 := by
      rw [List.count_append]
      simp
    have hzz : ∀ y : String, y ≠ x → List.count y (p ++ [x]) = List.count y p := by
      intro y hyx
      rw [List.count_append,
        List.count_eq_zero_of_not_mem (fun hh => hyx (List.mem_singleton.mp hh))]
      omega
    have hstep : (∀ z, lookupA (regIdsStep r x) z =
        if 0 < List.count z (p ++ [x]) then
          some (familyIds z (List.count z (p ++ [x]))) else none) ∧
        ((regIdsStep r x).map Prod.fst).Nodup := by
      match hlx : lookupA r x with
      | some fam =>
        have hcn : 0 < List.count x p ∧ fam = familyIds x (List.count x p) := by
          have := hc x
          rw [hlx] at this
          by_cases h : 0 < List.count x p
          · rw [if_pos h] at this
            exact ⟨h, Option.some.inj this⟩
          · rw [if_neg h] at this
            exact absurd this (by simp)
        obtain ⟨hpos, hfam⟩ := hcn
        constructor
        · intro z
          unfold regIdsStep
          rw [hlx, lookupA_dictSet]
          by_cases hzx : x = z
          · subst hzx
            rw [if_pos rfl, hxx, if_pos (by omega)]
            rw [hfam, familyIds_length x _ hpos, ← familyIds_succ x _ hpos]
          · rw [if_neg hzx, hc z, hzz z (fun hh => hzx hh.symm)]
        · unfold regIdsStep
          rw [hlx]
          rw [keys_dictSet_of_mem r x _ (by rw [hlx]; rfl)]
          exact hnd
      | none =>
        have hcz : List.count x p = 0 := by
          have := hc x
          rw [hlx] at this
          by_cases h : 0 < List.count x p
          · rw [if_pos h] at this
            exact absurd this (by simp)
          · omega
        constructor
        · intro z
          unfold regIdsStep
          rw [hlx]
          by_cases hzx : z = x
          · subst hzx
            rw [lookupA_append_right r _ _ hlx, hxx, hcz]
            simp [lookupA, familyIds_one]
          · rw [hzz z hzx]
            match hlz : lookupA r z with
            | some fam2 =>
              rw [lookupA_append_left r _ z fam2 hlz, ← hc z, hlz]
            | none =>
              rw [lookupA_append_right r _ z hlz]
              have hz1 : lookupA [(x, [x])] z = none := by
                simp only [lookupA]
                rw [if_neg (fun hh => hzx hh.symm)]
              rw [hz1, ← hc z, hlz]
        · unfold regIdsStep
          rw [hlx]
          have hxnot : x ∉ r.map Prod.fst := by
            intro hmem
            have := (lookupA_isSome_iff r x).mpr hmem
            rw [hlx] at this
            exact absurd this (by simp)
          rw [List.map_append]
          rw [List.nodup_append]
          refine ⟨hnd, by simp, ?_⟩
          intro a ha hb
          simp at hb
          subst hb
          exact hxnot ha
    obtain ⟨hstep1, hstep2⟩ := hstep
    have := ih (p ++ [x]) (regIdsStep r x) hstep1 hstep2
    rw [hassoc]
    exact this

theorem regIds_lookup (l : List String) :
    ∀ x, lookupA (regIds [] l) x =
      if 0 < List.count x l then some (familyIds x (List.count x l)) else none := by
  have h := regIds_char_aux l [] [] (by intro x; simp [lookupA]) (by simp)
  intro x
  have := h.1 x
  simpa using this

theorem regIds_keys_nodup (l : List String) : ((regIds [] l).map Prod.fst).Nodup := by
  exact (regIds_char_aux l [] [] (by intro x; simp [lookupA]) (by simp)).2

theorem lookupA_of_mem_nodup {α : Type} (l : List (String × α))
    (hnd : (l.map Prod.fst).Nodup) (k : String) (v : α) (h : (k, v) ∈ l) :
    lookupA l k = some v := by
  induction l with
  | nil => simp at h
  | cons e rest ih =>
    obtain ⟨kk, w⟩ := e
    simp only [List.map_cons, List.nodup_cons] at hnd
    rcases List.mem_cons.mp h with h2 | h2
    · obtain ⟨h3, h4⟩ := Prod.mk.injEq .. ▸ h2.symm
      subst h3
      subst h4
      simp [lookupA]
    · by_cases hk : kk = k
      · subst hk
        exact absurd (List.mem_map.mpr ⟨(kk, v), h2, rfl⟩) hnd.1
      · simp only [lookupA, if_neg hk]
        exact ih hnd.2 h2

theorem mem_regIds (l : List String) (e : String × List String) :
    e ∈ regIds [] l ↔
      e.fst ∈ l ∧ e.snd = familyIds e.fst (List.count e.fst l) := by
  constructor
  · intro h
    have hl := lookupA_of_mem_nodup _ (regIds_keys_nodup l) e.fst e.snd
      (by obtain ⟨a, b⟩ := e; exact h)
    rw [regIds_lookup l e.fst] at hl
    by_cases hp : 0 < List.count e.fst l
    · rw [if_pos hp] at hl
      exact ⟨List.count_pos_iff.mp hp, (Option.some.inj hl).symm⟩
    · rw [if_neg hp] at hl
      exact absurd hl (by simp)
  · rintro ⟨h1, h2⟩
    have hp : 0 < List.count e.fst l := List.count_pos_iff.mpr h1
    have := regIds_lookup l e.fst
    rw [if_pos hp, ← h2] at this
    obtain ⟨a, b⟩ := e
    exact mem_of_lookupA _ _ _ this

/-! #### Behaviour of the origin-expansion loop -/

theorem lookupA_famFold (srcs : List SourceInfo) (fam : List (String × Signal)) :
    ∀ (acc : List (String × List SourceInfo)) (v : String),
    lookupA (fam.foldl (fun acc2 w => dictSet acc2 w.fst srcs) acc) v =
      if v ∈ fam.map Prod.fst then some srcs else lookupA acc v := by
  induction fam with
  | nil =>
    intro acc v
    simp
  | cons w rest ih =>
    intro acc v
    rw [List.foldl_cons, ih]
    by_cases hv : v ∈ rest.map Prod.fst
    · rw [if_pos hv, if_pos (by simp [hv])]
    · rw [if_neg hv, lookupA_dictSet]
      by_cases hw : w.fst = v
      · rw [if_pos hw, if_pos (by simp [hw])]
      · rw [if_neg hw, if_neg (by
          simp only [List.map_cons, List.mem_cons]
          rintro (h | h)
          · exact hw h.symm
          · exact hv h)]

theorem expandFold_preserve (origins : List (String × List SourceInfo)) (v : String) :
    ∀ (L : Registry) (acc : List (String × List SourceInfo)),
    (∀ e ∈ L, v ∉ e.snd.map Prod.fst) →
    lookupA (L.foldl (expandEntry origins) acc) v = lookupA acc v := by
  intro L
  induction L with
  | nil => intro acc h; rfl
  | cons e0 rest ih =>
    intro acc h
    rw [List.foldl_cons, ih _ (fun e he => h e (List.mem_cons_of_mem _ he))]
    unfold expandEntry
    match lookupA origins e0.fst with
    | none => rfl
    | some srcs =>
      rw [lookupA_famFold, if_neg (h e0 (List.mem_cons_self _ _))]

theorem lookupA_expandFold (origins : List (String × List SourceInfo)) (v : String)
    (srcs : List SourceInfo) :
    ∀ (L : Registry) (acc : List (String × List SourceInfo)),
    ((L.map (fun e => e.snd.map Prod.fst)).flatten).Nodup →
    (∃ e ∈ L, lookupA origins e.fst = some srcs ∧ v ∈ e.snd.map Prod.fst) →
    lookupA (L.foldl (expandEntry origins) acc) v = some srcs := by
  intro L
  induction L with
  | nil =>
    intro acc hnd h
    obtain ⟨e, he, _⟩ := h
    exact absurd he (List.not_mem_nil e)
  | cons e0 rest ih =>
    intro acc hnd h
    simp only [List.map_cons, List.flatten_cons] at hnd
    rw [List.nodup_append] at hnd
    obtain ⟨hnd0, hndr, hdisj⟩ := hnd
    obtain ⟨e, he, hsrcs, hv⟩ := h
    rcases List.mem_cons.mp he with he0 | her
    · subst he0
      rw [List.foldl_cons]
      have hrest : ∀ e' ∈ rest, v ∉ e'.snd.map Prod.fst := by
        intro e' he' hmem
        exact hdisj hv (by
          rw [List.mem_flatten]
          exact ⟨e'.snd.map Prod.fst, List.mem_map.mpr ⟨e', he', rfl⟩, hmem⟩)
      rw [expandFold_preserve origins v rest _ hrest]
      unfold expandEntry
      rw [hsrcs, lookupA_famFold, if_pos hv]
    · rw [List.foldl_cons]
      exact ih _ hndr ⟨e, her, hsrcs, hv⟩

theorem isSome_expandFold (origins : List (String × List SourceInfo)) (v : String) :
    ∀ (L : Registry) (acc : List (String × List SourceInfo)),
    (lookupA (L.foldl (expandEntry origins) acc) v).isSome ↔
      (lookupA acc v).isSome ∨
        ∃ e ∈ L, (lookupA origins e.fst).isSome ∧ v ∈ e.snd.map Prod.fst := by
  intro L
  induction L with
  | nil =>
    intro acc
    simp
  | cons e0 rest ih =>
    intro acc
    rw [List.foldl_cons, ih]
    unfold expandEntry
    match hl0 : lookupA origins e0.fst with
    | none =>
      constructor
      · rintro (h | h)
        · exact Or.inl h
        · exact Or.inr (by
            obtain ⟨e, he, h1, h2⟩ := h
            exact ⟨e, List.mem_cons_of_mem _ he, h1, h2⟩)
      · rintro (h | ⟨e, he, h1, h2⟩)
        · exact Or.inl h
        · rcases List.mem_cons.mp he with he0 | her
          · subst he0
            rw [hl0] at h1
            exact absurd h1 (by simp)
          · exact Or.inr ⟨e, her, h1, h2⟩
    | some srcs =>
      rw [lookupA_famFold]
      by_cases hv : v ∈ e0.snd.map Prod.fst
      · rw [if_pos hv]
        simp only [Option.isSome_some, true_or]
        constructor
        · intro _
          exact Or.inr ⟨e0, List.mem_cons_self _ _, by rw [hl0]; rfl, hv⟩
        · intro _
          trivial
      · rw [if_neg hv]
        constructor
        · rintro (h | ⟨e, he, h1, h2⟩)
          · exact Or.inl h
          · exact Or.inr ⟨e, List.mem_cons_of_mem _ he, h1, h2⟩
        · rintro (h | ⟨e, he, h1, h2⟩)
          · exact Or.inl h
          · rcases List.mem_cons.mp he with he0 | her
            · subst he0
              exact absurd h2 hv
            · exact Or.inr ⟨e, her, h1, h2⟩

theorem familyIds_eq_map (x : String) (k : Nat) (h : 1 ≤ k) :
    familyIds x k = (List.range' 1 k).map (emitId x) := by
  unfold familyIds
  obtain ⟨k', rfl⟩ : ∃ k', k = k' + 1 := ⟨k - 1, by omega⟩
  rw [List.range'_succ, List.map_cons]
  have h2 : List.range' (1 + 1) k' = List.range' 2 k' := rfl
  rw [h2]
  have hhead : emitId x 1 = x := rfl
  rw [hhead]
  have h1 : k' + 1 - 1 = k' := by omega
  rw [h1]
  have htail : (List.range' 2 k').map (fun j => x ++ "_V" ++ Nat.repr j) =
      (List.range' 2 k').map (emitId x) := by
    apply List.map_congr_left
    intro j hj
    rw [List.mem_range'_1] at hj
    unfold emitId
    rw [if_neg (by omega)]
  rw [htail]

theorem regIds_flat_nodup (l : List String) (H : noVersionCollision l) :
    (((regIds [] l).map (fun e => e.snd)).flatten).Nodup := by
  rw [List.nodup_flatten]
  constructor
  · intro fam hfam
    obtain ⟨e, he, rfl⟩ := List.mem_map.mp hfam
    obtain ⟨hx, hfam2⟩ := (mem_regIds l e).mp he
    have hcnt : 0 < List.count e.fst l := List.count_pos_iff.mpr hx
    rw [hfam2, familyIds_eq_map _ _ hcnt]
    apply List.Nodup.map_on ?_ (List.nodup_range' _ _)
    intro j1 hj1 j2 hj2 heq
    rw [List.mem_range'_1] at hj1 hj2
    exact (emitId_inj H hx hx (by omega) (by omega) (by omega) (by omega) heq).2
  · have hpw : (regIds [] l).Pairwise (fun e1 e2 => e1.fst ≠ e2.fst) := by
      have hk := regIds_keys_nodup l
      rw [List.Nodup, List.pairwise_map] at hk
      exact hk
    rw [List.pairwise_map]
    apply List.Pairwise.imp_of_mem ?_ hpw
    intro e1 e2 h1 h2 hne
    intro v hv1 hv2
    obtain ⟨hx1, hfam1⟩ := (mem_regIds l e1).mp h1
    obtain ⟨hx2, hfam2⟩ := (mem_regIds l e2).mp h2
    rw [hfam1, mem_familyIds _ _ (List.count_pos_iff.mpr hx1)] at hv1
    rw [hfam2, mem_familyIds _ _ (List.count_pos_iff.mpr hx2)] at hv2
    obtain ⟨j1, hj1a, hj1b, rfl⟩ := hv1
    obtain ⟨j2, hj2a, hj2b, heq⟩ := hv2
    exact hne (emitId_inj H hx1 hx2 hj1a hj1b hj2a hj2b heq).1

theorem reg_vids_eq (cmds : List Command) :
    (ensureCommands [] cmds).fst.map (fun e => e.snd.map Prod.fst) =
      (regIds [] (idWalk cmds)).map (fun e => e.snd) := by
  have h := ensureCommands_projIds cmds []
  calc (ensureCommands [] cmds).fst.map (fun e => e.snd.map Prod.fst)
      = (projIds (ensureCommands [] cmds).fst).map (fun e => e.snd) := by
        simp only [projIds, List.map_map]
        rfl
    _ = (regIds [] (idWalk cmds)).map (fun e => e.snd) := by
        rw [h]
        rfl

/-! #### Claims C10 and C4 -/

/-- C10: when the input carries a _signal_origins map, the output map keys
are exactly the versioned identifiers derived from original identifiers
that both occur on some signal in the commands and have an entry in the
input map; origin entries for identifiers occurring on no signal are
dropped. -/
theorem C10_origin_keys_after_enforcement (m : Signalset)
    (origins : List (String × List SourceInfo)) (hor : m.signalOrigins = some origins) :
    ∃ out, (ensure_unique_signal_ids m).signalOrigins = some out ∧
      ∀ z, z ∈ out.map Prod.fst ↔
        ∃ x, x ∈ idWalk m.commands ∧ (lookupA origins x).isSome ∧
          z ∈ familyIds x (List.count x (idWalk m.commands)) := by
  refine ⟨expandOrigins (ensureCommands [] m.commands).fst origins, ?_, ?_⟩
  · simp only [ensure_unique_signal_ids, hor]
  · intro z
    rw [← lookupA_isSome_iff]
    unfold expandOrigins
    rw [isSome_expandFold]
    simp only [lookupA, Option.isSome_none, Bool.false_eq_true, false_or]
    constructor
    · rintro ⟨e, he, h1, h2⟩
      have hpe : (e.fst, e.snd.map Prod.fst) ∈ projIds (ensureCommands [] m.commands).fst :=
        List.mem_map.mpr ⟨e, he, rfl⟩
      rw [ensureCommands_projIds] at hpe
      obtain ⟨hx, hfam⟩ := (mem_regIds _ _).mp hpe
      exact ⟨e.fst, hx, h1, by rw [← hfam]; exact h2⟩
    · rintro ⟨x, hx, h1, h2⟩
      have hcnt : 0 < List.count x (idWalk m.commands) := List.count_pos_iff.mpr hx
      have hlook := regIds_lookup (idWalk m.commands) x
      rw [if_pos hcnt] at hlook
      have hmem : (x, familyIds x (List.count x (idWalk m.commands))) ∈
          projIds (ensureCommands [] m.commands).fst := by
        rw [ensureCommands_projIds]
        exact mem_of_lookupA _ _ _ hlook
      obtain ⟨e, he, heq⟩ := List.mem_map.mp hmem
      have he1 : e.fst = x := congrArg Prod.fst heq
      have he2 : e.snd.map Prod.fst = familyIds x (List.count x (idWalk m.commands)) :=
        congrArg Prod.snd heq
      exact ⟨e, he, by rw [he1]; exact h1, by rw [he2]; exact h2⟩

/-- C4 (amended): when ensure_unique_signal_ids receives a signalset that
carries a _signal_origins map and the input is free of version-suffix
collisions, every versioned identifier derived from an original identifier
inherits exactly the origin list recorded for the original (in particular
id_V2 maps to the same list as id).  In the full extraction pipeline this
expansion never reaches the provenance report, since the fleet-wide
signalset carries no _signal_origins map at enforcement time. -/
theorem C4_versioned_ids_inherit_origins (m : Signalset)
    (origins : List (String × List SourceInfo)) (hor : m.signalOrigins = some origins)
    (H : noVersionCollision (idWalk m.commands)) :
    ∃ out, (ensure_unique_signal_ids m).signalOrigins = some out ∧
      ∀ x ∈ idWalk m.commands, ∀ srcs, lookupA origins x = some srcs →
        ∀ v ∈ familyIds x (List.count x (idWalk m.commands)), lookupA out v = some srcs := by
  refine ⟨expandOrigins (ensureCommands [] m.commands).fst origins, ?_, ?_⟩
  · simp only [ensure_unique_signal_ids, hor]
  · intro x hx srcs hsrcs v hv
    unfold expandOrigins
    apply lookupA_expandFold
    · rw [reg_vids_eq]
      exact regIds_flat_nodup _ H
    · have hcnt : 0 < List.count x (idWalk m.commands) := List.count_pos_iff.mpr hx
      have hlook := regIds_lookup (idWalk m.commands) x
      rw [if_pos hcnt] at hlook
      have hmem : (x, familyIds x (List.count x (idWalk m.commands))) ∈
          projIds (ensureCommands [] m.commands).fst := by
        rw [ensureCommands_projIds]
        exact mem_of_lookupA _ _ _ hlook
      obtain ⟨e, he, heq⟩ := List.mem_map.mp hmem
      have he1 : e.fst = x := congrArg Prod.fst heq
      have he2 : e.snd.map Prod.fst = familyIds x (List.count x (idWalk m.commands)) :=
        congrArg Prod.snd heq
      exact ⟨e, he, by rw [he1]; exact hsrcs, by rw [he2]; exact hv⟩

/-- C10 witness: the key characterization applied at a concrete signalset
whose origins map carries one live and one stale identifier. -/
theorem C10_witness :
    ∃ out, (ensure_unique_signal_ids exC10).signalOrigins = some out ∧
      ∀ z, z ∈ out.map Prod.fst ↔
        ∃ x, x ∈ idWalk exC10.commands ∧ (lookupA exC10origins x).isSome ∧
          z ∈ familyIds x (List.count x (idWalk exC10.commands)) :=
  C10_origin_keys_after_enforcement exC10 exC10origins rfl

/-- C4 witness: the inheritance statement applied at a concrete
collision-free signalset carrying an origins map. -/
theorem C4_witness :
    ∃ out, (ensure_unique_signal_ids exC10).signalOrigins = some out ∧
      ∀ x ∈ idWalk exC10.commands, ∀ srcs, lookupA exC10origins x = some srcs →
        ∀ v ∈ familyIds x (List.count x (idWalk exC10.commands)),
          lookupA out v = some srcs :=
  C4_versioned_ids_inherit_origins exC10 exC10origins rfl (by decide)

/-! #### Claim C5 -/

/-- C5 (amended): within one vehicle, two signals with equal non-identifier
attributes collapse to one signal when they occur in the same command, and
are both retained under the same identifier with no renaming when they
occur in different commands; the identifier's origin list keeps exactly one
entry per contributing repository — within a single vehicle all files share
the repository, so the list holds the single entry of the first
contributing file. -/
theorem C5_conflict_detection_symmetry (i n1 n2 n3 : String) (r : List (String × String))
    (hi : i ≠ "") :
    process_signalsets
      [([mkCommand "701" "22" "0103" [mkSignal (some i) n1 r, mkSignal (some i) n2 r]],
        "file1.json"),
       ([mkCommand "747" "22" "0103" [mkSignal (some i) n3 r]], "file2.json")]
      "Toyota" "Camry" none =
    { commands :=
        [{ mkCommand "701" "22" "0103" [mkSignal (some i) n1 r] with dbg := some true },
         { mkCommand "747" "22" "0103" [mkSignal (some i) n3 r] with dbg := some true }],
      signalOrigins := some [(i, [⟨"file1.json", "Toyota", "Camry", "Toyota-Camry", none⟩])] } := by
  have hstep1 : processSignal none ⟨"file1.json", "Toyota", "Camry", "Toyota-Camry", none⟩
      "701::22:0103:" ⟨[], [], []⟩ ⟨some i, some n1, none, none, none, r⟩ =
      (⟨[(i, ⟨some i, some n1, none, none, none, r⟩)],
        [(i, [⟨"file1.json", "Toyota", "Camry", "Toyota-Camry", none⟩])],
        [(i, ["701::22:0103:"])]⟩,
       [⟨some i, some n1, none, none, none, r⟩]) := by
    simp [processSignal, hi, lookupA, hasKey, dictSet, setAdd]
  have hstep2 : processSignal none ⟨"file1.json", "Toyota", "Camry", "Toyota-Camry", none⟩
      "701::22:0103:"
      ⟨[(i, ⟨some i, some n1, none, none, none, r⟩)],
        [(i, [⟨"file1.json", "Toyota", "Camry", "Toyota-Camry", none⟩])],
        [(i, ["701::22:0103:"])]⟩
      ⟨some i, some n2, none, none, none, r⟩ =
      (⟨[(i, ⟨some i, some n1, none, none, none, r⟩)],
        [(i, [⟨"file1.json", "Toyota", "Camry", "Toyota-Camry", none⟩])],
        [(i, ["701::22:0103:"])]⟩,
       []) := by
    simp [processSignal, hi, lookupA, hasKey, dictSet, setAdd, are_signals_equal]
  have hstep3 : processSignal none ⟨"file2.json", "Toyota", "Camry", "Toyota-Camry", none⟩
      "747::22:0103:"
      ⟨[(i, ⟨some i, some n1, none, none, none, r⟩)],
        [(i, [⟨"file1.json", "Toyota", "Camry", "Toyota-Camry", none⟩])],
        [(i, ["701::22:0103:"])]⟩
      ⟨some i, some n3, none, none, none, r⟩ =
      (⟨[(i, ⟨some i, some n1, none, none, none, r⟩)],
        [(i, [⟨"file1.json", "Toyota", "Camry", "Toyota-Camry", none⟩])],
        [(i, ["701::22:0103:", "747::22:0103:"])]⟩,
       [⟨some i, some n3, none, none, none, r⟩]) := by
    simp [processSignal, hi, lookupA, hasKey, dictSet, setAdd, are_signals_equal]
  have hps1 : processSignals none ⟨"file1.json", "Toyota", "Camry", "Toyota-Camry", none⟩
      "701::22:0103:" ⟨[], [], []⟩
      [⟨some i, some n1, none, none, none, r⟩, ⟨some i, some n2, none, none, none, r⟩] =
      (⟨[(i, ⟨some i, some n1, none, none, none, r⟩)],
        [(i, [⟨"file1.json", "Toyota", "Camry", "Toyota-Camry", none⟩])],
        [(i, ["701::22:0103:"])]⟩,
       [⟨some i, some n1, none, none, none, r⟩]) := by
    simp only [processSignals]
    rw [hstep1]
    simp only [processSignals]
    rw [hstep2]
    rfl
  have hps2 : processSignals none ⟨"file2.json", "Toyota", "Camry", "Toyota-Camry", none⟩
      "747::22:0103:"
      ⟨[(i, ⟨some i, some n1, none, none, none, r⟩)],
        [(i, [⟨"file1.json", "Toyota", "Camry", "Toyota-Camry", none⟩])],
        [(i, ["701::22:0103:"])]⟩
      [⟨some i, some n3, none, none, none, r⟩] =
      (⟨[(i, ⟨some i, some n1, none, none, none, r⟩)],
        [(i, [⟨"file1.json", "Toyota", "Camry", "Toyota-Camry", none⟩])],
        [(i, ["701::22:0103:", "747::22:0103:"])]⟩,
       [⟨some i, some n3, none, none, none, r⟩]) := by
    simp only [processSignals]
    rw [hstep3]
    rfl
  simp only [process_signalsets, processFiles, processCommands, processCommand,
    processCommandSignals, processSignals, processSignal, normalizeCommand, mergeIntoExisting,
    initPState, mkCommand, mkSignal, lookupA, dictSet, hasKey, setAdd, are_signals_equal,
    get_command_id, firstServiceId, cmdDict, extract_year_range_from_filename, hi,
    Option.getD_some, Option.getD_none, decide_eq_true_eq]
  simp [hi]
  rw [hps1]
  rw [hps2]
  exact ⟨⟨rfl, rfl⟩, rfl⟩

/-- C5 counterexample: two different files of one vehicle contribute the
same equal signal in different commands; the signal is retained in both
commands, but its origin list holds a single entry (from file1 only), not
one entry per contributing file, because origin recording deduplicates by
repository name, identical for every file of the vehicle. -/
theorem C5_counterexample :
    (process_signalsets exC5files "Toyota" "Camry" none).signalOrigins =
      some [("CAMRY_ODO", [⟨"file1.json", "Toyota", "Camry", "Toyota-Camry", none⟩])] ∧
    (process_signalsets exC5files "Toyota" "Camry" none).commands.map
      (fun c => (c.signals.getD []).filterMap Signal.id) = [["CAMRY_ODO"], ["CAMRY_ODO"]] := by
  refine ⟨by decide, by decide⟩

/-- C5 witness: the repository test scenario for conflicting signals. -/
theorem C5_witness :
    process_signalsets
      [([mkCommand "701" "22" "0103"
          [mkSignal (some "CAMRY_ODO") "Odometer" [("fmt", "odo")],
           mkSignal (some "CAMRY_ODO") "Odo2" [("fmt", "odo")]]], "file1.json"),
       ([mkCommand "747" "22" "0103"
          [mkSignal (some "CAMRY_ODO") "Odo3" [("fmt", "odo")]]], "file2.json")]
      "Toyota" "Camry" none =
    { commands :=
        [{ mkCommand "701" "22" "0103"
            [mkSignal (some "CAMRY_ODO") "Odometer" [("fmt", "odo")]] with dbg := some true },
         { mkCommand "747" "22" "0103"
            [mkSignal (some "CAMRY_ODO") "Odo3" [("fmt", "odo")]] with dbg := some true }],
      signalOrigins :=
        some [("CAMRY_ODO", [⟨"file1.json", "Toyota", "Camry", "Toyota-Camry", none⟩])] } :=
  C5_conflict_detection_symmetry "CAMRY_ODO" "Odometer" "Odo2" "Odo3" [("fmt", "odo")]
    (by decide)

example : extract_year_range_from_filename "2016-2020.json" = some (2016, 2020) := by decide
example : extract_year_range_from_filename "1998-2005.json" = some (1998, 2005) := by decide
example : extract_year_range_from_filename "default.json" = none := by decide
example : extract_year_range_from_filename "2020.json" = none := by decide
example : extract_year_range_from_filename "2016-202a.json" = none := by decide
example : replace_signal_prefix "RAV4_VSS" "TOYOTA" = "TOYOTA_VSS" := by decide
example : replace_signal_prefix "CAMRY_ENGINE_RPM" "TOYOTA" = "TOYOTA_ENGINE_RPM" := by decide
example : replace_signal_prefix "SPEED" "TOYOTA" = "TOYOTA_SPEED" := by decide
example : replace_signal_prefix "" "TOYOTA" = "" := by decide

end OBDb
